import Mathlib

/-!
Verification development for the `bdf2ufo.py` converter: a shallow embedding of
the glyph-decomposition search, anchor synthesis, master enumeration, metric
computation and load-time combining-glyph synthesis, with theorems settling the
specification's claims about them.

Conventions: numpy `uint8` bitmaps become row-major `List (List Bool)` matrices
(`true` = ink); Python integers become `Int` (or `Nat` where the source value is
a shape or loop index); Python dicts become association lists looked up with
`List.lookup` and updated with `aset` (replace-in-place or append, matching dict
assignment); functions that can fail return `Option`.
-/

namespace Bdf2Ufo

set_option maxRecDepth 4000

/-- A bitmap: rows of pixels, `true` = ink, mirroring the numpy arrays of the
source (`bitmap[y][x]`). -/
abbrev Bitmap := List (List Bool)

/-- Number of rows, i.e. `bitmap.shape[0]`. -/
def bmRows (b : Bitmap) : Nat := b.length

/-- Number of columns, i.e. `bitmap.shape[1]` (row length of a rectangular
matrix). -/
def bmCols (b : Bitmap) : Nat := (b.headD []).length

/-- Pixel read `bitmap[y][x]`; out-of-range reads are `false` (source indices
are always in range). -/
def bmGet (b : Bitmap) (y x : Nat) : Bool := (b.getD y []).getD x false

/-- Pixel write `bitmap[y][x] = 1`. -/
def bmSet (b : Bitmap) (y x : Nat) : Bitmap := b.set y ((b.getD y []).set x true)

/-- The all-zeros bitmap `np.zeros((h, w))`. -/
def bmZeros (h w : Nat) : Bitmap := List.replicate h (List.replicate w false)

/-- Shape `(rows, cols)` of a bitmap. -/
def bmShape (b : Bitmap) : Nat × Nat := (bmRows b, bmCols b)

/-- Source `add_offset`: componentwise sum of two `(row, col)` offsets. -/
def add_offset (a b : Int × Int) : Int × Int := (a.1 + b.1, a.2 + b.2)

/-- Source `subtract_offset`: componentwise difference of two `(row, col)`
offsets. -/
def subtract_offset (a b : Int × Int) : Int × Int := (a.1 - b.1, a.2 - b.2)

/-- One glyph record of the loaded BDF font: codepoint, cropped bitmap, the
bitmap's `(row, col)` offset on the baseline grid, and advance width. -/
structure Glyph where
  codepoint : Int
  bitmap : Bitmap
  offset : Int × Int
  advance : Int
deriving DecidableEq

/-- The glyph repository part of `bdf_font`: `glyphs` maps glyph names to
records, `codepoints` maps codepoints to glyph names (both Python dicts). -/
structure BdfFont where
  glyphs : List (String × Glyph)
  codepoints : List (Int × String)
deriving DecidableEq

/-- Fallback glyph used where the Python source would raise a `KeyError` on an
ill-formed repository; never reached on well-formed inputs. -/
def junkGlyph : Glyph := ⟨0, [], (0, 0), 0⟩

/-- One row of the source's `combining_infos` table: display name, anchor role,
and optional spacing-modifier codepoint. -/
structure CombiningInfo where
  displayName : String
  anchorRole : String
  modifier : Option Int
deriving DecidableEq

/-- The source's `combining_infos` table, in source order. -/
def combining_infos : List (Int × CombiningInfo) := [
  (0x300, ⟨"grave accent", "top", some 0x2cb⟩),
  (0x301, ⟨"acute accent", "top.shifted", some 0x2ca⟩),
  (0x302, ⟨"circumflex accent", "top", some 0x2c6⟩),
  (0x303, ⟨"tilde", "top.shifted", some 0x2dc⟩),
  (0x304, ⟨"macron", "top", some 0x2c9⟩),
  (0x306, ⟨"breve", "top", some 0x2d8⟩),
  (0x307, ⟨"dot above", "top", some 0x2d9⟩),
  (0x308, ⟨"diaeresis", "top", some 0xa8⟩),
  (0x309, ⟨"hook above", "top", none⟩),
  (0x30a, ⟨"ring above", "top", some 0x2da⟩),
  (0x30b, ⟨"double acute accent", "top.shifted", some 0x2dd⟩),
  (0x30c, ⟨"caron", "top", some 0x2c7⟩),
  (0x30d, ⟨"vertical line above", "top", some 0x2c8⟩),
  (0x30f, ⟨"double grave accent", "top", some 0x2f5⟩),
  (0x311, ⟨"inverted breve", "top", some 0x1aff⟩),
  (0x313, ⟨"comma above", "top", some 0x2c⟩),
  (0x314, ⟨"reversed comma above", "top", none⟩),
  (0x315, ⟨"comma above right", "top.right", some 0x2c⟩),
  (0x31b, ⟨"horn", "horn", none⟩),
  (0x323, ⟨"dot below", "bottom", some 0x2d9⟩),
  (0x324, ⟨"diaeresis below", "bottom", some 0xa8⟩),
  (0x325, ⟨"ring below", "bottom", some 0x2da⟩),
  (0x326, ⟨"comma below", "bottom", some 0x2c⟩),
  (0x327, ⟨"cedilla", "cedilla", some 0xb8⟩),
  (0x328, ⟨"ogonek", "ogonek", some 0x2db⟩),
  (0x32d, ⟨"circumflex accent below", "bottom", some 0x2c6⟩),
  (0x32e, ⟨"breve below", "bottom", some 0x2d8⟩),
  (0x32f, ⟨"inverted breve below", "bottom", some 0x1aff⟩),
  (0x330, ⟨"tilde below", "bottom.shifted", some 0x2dc⟩),
  (0x331, ⟨"macron below", "bottom", some 0x2c9⟩),
  (0x332, ⟨"low line", "top", some 0x5f⟩),
  (0x335, ⟨"short stroke overlay", "overlay", none⟩),
  (0x342, ⟨"greek perispomeni", "top.shifted", some 0x2dc⟩),
  (0x343, ⟨"greek koronis", "top", some 0x2c⟩),
  (0x344, ⟨"greek dialytika tonos", "top", some 0xa8⟩),
  (0x345, ⟨"greek ypogegrammeni", "bottom", some 0x37a⟩),
  (0x359, ⟨"asterisk below", "bottom", none⟩),
  (0x35c, ⟨"double breve below", "bottom", none⟩),
  (0x35f, ⟨"double macron below", "bottom", some 0x2ed⟩),
  (0x1dc4, ⟨"macron acute", "top", none⟩),
  (0x1dc5, ⟨"grave macron", "top", none⟩),
  (0x1dc6, ⟨"macron grave", "top", none⟩),
  (0x1dc7, ⟨"acute macron", "top", none⟩),
  (0x1dca, ⟨"latin small letter r below", "bottom", none⟩)]

/-- The source's `custom_anchors` exclusion list of codepoints that never get
anchors. -/
def custom_anchors : List Int := [
  0x3b6, 0x3b8, 0x3b9, 0x3ba, 0x3bc, 0x3be, 0x3bf,
  0x1f02, 0x1f03, 0x1f04, 0x1f05, 0x1f08, 0x1f09, 0x1f0a, 0x1f0b, 0x1f0c, 0x1f0d,
  0x1f12, 0x1f13, 0x1f14, 0x1f15, 0x1f18, 0x1f19, 0x1f1a, 0x1f1b, 0x1f1c, 0x1f1d,
  0x1f22, 0x1f23, 0x1f24, 0x1f25, 0x1f28, 0x1f29, 0x1f2a, 0x1f2b, 0x1f2c, 0x1f2d,
  0x1f32, 0x1f33, 0x1f34, 0x1f35, 0x1f38, 0x1f39, 0x1f3a, 0x1f3b, 0x1f3c, 0x1f3d,
  0x1f42, 0x1f43, 0x1f44, 0x1f45, 0x1f48, 0x1f49, 0x1f4a, 0x1f4b, 0x1f4c, 0x1f4d,
  0x1f52, 0x1f53, 0x1f54, 0x1f55, 0x1f59, 0x1f5b, 0x1f5c,
  0x1f62, 0x1f63, 0x1f64, 0x1f65, 0x1f68, 0x1f69, 0x1f6a, 0x1f6b, 0x1f6c, 0x1f6d,
  0x1f82, 0x1f83, 0x1f84, 0x1f85, 0x1f88, 0x1f89, 0x1f8a, 0x1f8b, 0x1f8c, 0x1f8d,
  0x1f92, 0x1f93, 0x1f94, 0x1f95, 0x1f98, 0x1f99, 0x1f9a, 0x1f9b, 0x1f9c, 0x1f9d,
  0x1fa2, 0x1fa3, 0x1fa4, 0x1fa5, 0x1fa8, 0x1fa9, 0x1faa, 0x1fab, 0x1fac, 0x1fad,
  0x1fba, 0x1fbb,
  0x1fc1, 0x1fc8, 0x1fc9, 0x1fca, 0x1fcb, 0x1fcd, 0x1fce, 0x1fcf,
  0x1fda, 0x1fdb, 0x1fdd, 0x1fde, 0x1fdf,
  0x1fea, 0x1feb, 0x1fec, 0x1fed, 0x1fee,
  0x1ff8, 0x1ff9, 0x1ffa, 0x1ffb]

/-- Row-major list of all `(y, x)` pixel coordinates of an `h × w` grid, the
iteration order of the source's nested pixel loops. -/
def pixList (h w : Nat) : List (Nat × Nat) :=
  (List.range h).flatMap (fun y => (List.range w).map (fun x => (y, x)))

/-- The success condition of `paint_bdf_glyph`: every ink pixel of the
component, shifted by `off`, must land on composite ink. -/
def paintCheck (composed comp : Bitmap) (off : Nat × Nat) : Bool :=
  (List.range (bmRows comp)).all fun y =>
    (List.range (bmCols comp)).all fun x =>
      !(bmGet comp y x) || bmGet composed (off.1 + y) (off.2 + x)

/-- One pixel of the mutation of `paint_bdf_glyph`: when the component has ink
at `p`, record the shifted pixel as covered in the working bitmap. -/
def paint_pixel (comp : Bitmap) (off : Nat × Nat) (w : Bitmap)
    (p : Nat × Nat) : Bitmap :=
  if bmGet comp p.1 p.2 then bmSet w (off.1 + p.1) (off.2 + p.2) else w

/-- The mutation of `paint_bdf_glyph`: record every ink pixel of the component,
shifted by `off`, as covered in the working bitmap. -/
def paintApply (comp : Bitmap) (off : Nat × Nat) (work : Bitmap) : Bitmap :=
  (pixList (bmRows comp) (bmCols comp)).foldl (paint_pixel comp off) work

/-- Source `paint_bdf_glyph`: returns the updated working bitmap when every ink
pixel of the component lands on composite ink, and `none` (Python `False`, the
partially mutated copy being discarded by the caller) otherwise. -/
def paint_bdf_glyph (composed comp : Bitmap) (off : Nat × Nat) (work : Bitmap) :
    Option Bitmap :=
  if paintCheck composed comp off then some (paintApply comp off work) else none

/-- Row-major enumeration of the offsets `0 ≤ dy ≤ Hc − Hk`, `0 ≤ dx ≤ Wc − Wk`
tried by `get_bdf_components` (empty when the component does not fit, matching
Python's empty `range`). -/
def offsetList (composed comp : Bitmap) : List (Nat × Nat) :=
  (List.range (bmRows composed + 1 - bmRows comp)).flatMap fun dy =>
    (List.range (bmCols composed + 1 - bmCols comp)).map fun dx => (dy, dx)

/-- One placement returned by the search: glyph name and absolute `(row, col)`
offset (`bdf_component` in the source). -/
structure BdfComponent where
  name : String
  offset : Int × Int
deriving DecidableEq

/-- Result of `get_bdf_components`: a placement list on success, otherwise one
of the source's string classifications. -/
inductive SearchResult where
  | success (comps : List BdfComponent)
  | missing
  | mismatch
  | uncomposable
deriving DecidableEq

/-- The offset loop of `get_bdf_components` for one resolved constituent glyph:
tries each offset in order, painting the constituent and running the search on
the remaining constituents (`recur`); `none` means the loop was exhausted
without a definitive result (fall through to the next stage or to the final
missing/mismatch classification). -/
def tryOffsets (recur : Bitmap → SearchResult) (composed : Glyph)
    (name : String) (g : Glyph) (work : Bitmap) :
    List (Nat × Nat) → Option SearchResult
  | [] => none
  | off :: offs =>
      match paint_bdf_glyph composed.bitmap g.bitmap off work with
      | none => tryOffsets recur composed name g work offs
      | some w =>
          match recur w with
          | .missing => some .missing
          | .uncomposable => some .uncomposable
          | .mismatch => tryOffsets recur composed name g work offs
          | .success comps =>
              some (.success (comps ++
                [⟨name, add_offset composed.offset (Int.ofNat off.1, Int.ofNat off.2)⟩]))

/-- The second iteration of the stage loop of `get_bdf_components` (reached
when stage 0 did not return): substitute the constituent's spacing-modifier
equivalent, detecting the self-reference and missing-substitute cases, then run
the offset loop on the substitute glyph; fall through to the final
missing/mismatch classification with the (possibly reassigned) constituent
codepoint. `recur` is the search on the remaining constituents. -/
def search_stage2 (font : BdfFont) (composed : Glyph)
    (recur : Bitmap → SearchResult) (cc : Int) (work : Bitmap) : SearchResult :=
  match combining_infos.lookup cc with
  | none =>
      if (font.codepoints.lookup cc).isSome then .mismatch else .missing
  | some info =>
      match info.modifier with
      | none => .missing
      | some mc =>
          if mc = composed.codepoint then .uncomposable
          else
            match font.codepoints.lookup mc with
            | none => .missing
            | some name =>
                let g := (font.glyphs.lookup name).getD junkGlyph
                match tryOffsets recur composed name g work
                    (offsetList composed.bitmap g.bitmap) with
                | some r => r
                | none =>
                    if (font.codepoints.lookup mc).isSome then .mismatch
                    else .missing

/-- Source `get_bdf_components`: recursive backtracking search placing each
constituent of `decomposition` into `composed`'s bitmap. `work` is the
accumulated working bitmap (the top-level call passes the all-zeros bitmap,
matching the `None → np.zeros` branch). Stage 0 resolves the constituent
codepoint directly; when it neither returns nor succeeds, `search_stage2`
substitutes the spacing-modifier equivalent. -/
def get_bdf_components (font : BdfFont) (composed : Glyph) :
    List Int → Bitmap → SearchResult
  | [], work =>
      if composed.bitmap = work then .success [] else .mismatch
  | cc :: rest, work =>
      let stage0 : Option SearchResult :=
        match font.codepoints.lookup cc with
        | none => none
        | some name =>
            let g := (font.glyphs.lookup name).getD junkGlyph
            tryOffsets (fun w => get_bdf_components font composed rest w) composed
              name g work (offsetList composed.bitmap g.bitmap)
      match stage0 with
      | some r => r
      | none =>
          search_stage2 font composed
            (fun w => get_bdf_components font composed rest w) cc work

/-- Python dict assignment `d[k] = v` on an association list: replace the first
binding of `k` in place, or append a new binding at the end (dicts preserve
insertion order). -/
def aset {α β : Type} [BEq α] : List (α × β) → α → β → List (α × β)
  | [], k, v => [(k, v)]
  | (k', v') :: t, k, v =>
      if k' == k then (k, v) :: t else (k', v') :: aset t k v

/-- The log message classes emitted by `decompose_bdf_glyph` for each search
outcome. -/
inductive DecomposeLog where
  | infoCouldCompose
  | warnCannotCompose
  | infoComposed
deriving DecidableEq

/-- The body of `decompose_bdf_glyph` from the point where the constituent
codepoint list has been computed (source lines 978-1007): run the search on the
all-zeros working bitmap (`None → np.zeros`) and map each classification to the
returned component list and the log message the source prints. -/
def process_decomposition (font : BdfFont) (composedName : String)
    (decomposition : List Int) : List BdfComponent × Option DecomposeLog :=
  let g := (font.glyphs.lookup composedName).getD junkGlyph
  match get_bdf_components font g decomposition
      (bmZeros (bmRows g.bitmap) (bmCols g.bitmap)) with
  | .missing => ([], some .infoCouldCompose)
  | .mismatch => ([], some .warnCannotCompose)
  | .uncomposable => ([], none)
  | .success comps => (comps, some .infoComposed)

/-- Python `str.startswith` on strings modelled as character lists. -/
def charsStartWith : List Char → List Char → Bool
  | [], _ => true
  | _ :: _, [] => false
  | p :: ps, c :: cs => p == c && charsStartWith ps cs

/-- Python `str.split()` on strings modelled as character lists: split on the
separator runs and discard empty tokens (decomposition strings contain only
single spaces, so splitting on the space character alone is exact here). The
first argument accumulates the current token in reverse. -/
def splitTokens : List Char → List Char → List (List Char)
  | acc, [] => if acc = [] then [] else [acc.reverse]
  | acc, c :: cs =>
      if c = ' ' then
        (if acc = [] then [] else [acc.reverse]) ++ splitTokens [] cs
      else splitTokens (c :: acc) cs

/-- The value of one hexadecimal digit (decomposition tokens contain only
valid hex digits, on which this agrees with Python). -/
def hexCharVal (c : Char) : Nat :=
  if '0' ≤ c ∧ c ≤ '9' then c.toNat - 48
  else if 'a' ≤ c ∧ c ≤ 'f' then c.toNat - 87
  else if 'A' ≤ c ∧ c ≤ 'F' then c.toNat - 55
  else 0

/-- Python `int(x, 16)` on a well-formed hexadecimal token. -/
def hexToInt (cs : List Char) : Int :=
  Int.ofNat (cs.foldl (fun acc c => 16 * acc + hexCharVal c) 0)

/-- The constituent list computed at source lines 974-976: split the
decomposition string into tokens, parse each as hexadecimal, then remove the
literal space separator codepoint 0x20. -/
def parse_decomposition (ds : List Char) : List Int :=
  ((splitTokens [] ds).map hexToInt).filter (· != 32)

/-- The `<compat>` tag stripping of source lines 970-971: if the decomposition
string starts with the nine characters of the compat tag and its trailing
space, they are removed. -/
def stripCompat (ds : List Char) : List Char :=
  if charsStartWith "<compat> ".data ds then ds.drop 9 else ds

/-- Source `decompose_bdf_glyph` from the point where the decomposition string
has been computed (lines 970-1007). `decompositionString` stands for the value
produced at lines 962-968: the `custom_decomposition` override if present, else
the external `unicodedata.decomposition` of the codepoint, else the empty
string. After `<compat>` stripping, an empty or still-tagged string returns
immediately with no components and no log — the search is never reached (lines
972-973). Otherwise the hex constituents are parsed, the space separator 0x20
is filtered out, and the search runs unconditionally on the result (line 979),
even when that list is empty. -/
def decompose_bdf_glyph (font : BdfFont) (composedName : String)
    (decompositionString : String) : List BdfComponent × Option DecomposeLog :=
  if stripCompat decompositionString.data = [] ∨
      charsStartWith "<".data (stripCompat decompositionString.data) then
    ([], none)
  else
    process_decomposition font composedName
      (parse_decomposition (stripCompat decompositionString.data))

/-- Modelled from the spec: the spec's variant of `decompose_bdf_glyph` in
which "for all glyphs with an empty decomposition sequence, the Component
Search Engine is never invoked; the glyph always renders from its raw bitmap" —
when the parsed, space-filtered constituent sequence is empty it returns
immediately with no components and no log, without consulting
`get_bdf_components`. Used only to compare against the source's behaviour. -/
def decompose_bdf_glyph_spec_skips_empty (font : BdfFont) (composedName : String)
    (decompositionString : String) : List BdfComponent × Option DecomposeLog :=
  if stripCompat decompositionString.data = [] ∨
      charsStartWith "<".data (stripCompat decompositionString.data) then
    ([], none)
  else if parse_decomposition (stripCompat decompositionString.data) = [] then
    ([], none)
  else
    process_decomposition font composedName
      (parse_decomposition (stripCompat decompositionString.data))

/-- The raw-bitmap fallback test of `add_ufo_glyphs` (source line 1305): a
glyph is rendered from its own bitmap exactly when the component list is
empty. -/
def renders_from_raw_bitmap (components : List BdfComponent) : Bool :=
  components.length == 0

/-- The `(dy, dx)` search offset of a placement, recovered from its absolute
offset by subtracting the composite's bitmap offset (inverse of the
`add_offset(composed_glyph.offset, offset)` at source line 944). -/
def relative_offset (composedOffset : Int × Int) (c : BdfComponent) : Nat × Nat :=
  ((c.offset.1 - composedOffset.1).toNat, (c.offset.2 - composedOffset.2).toNat)

/-- Paint one returned placement's constituent bitmap (looked up by name) onto
a working bitmap at its recovered search offset. -/
def paint_component (font : BdfFont) (composedOffset : Int × Int)
    (c : BdfComponent) (w : Bitmap) : Bitmap :=
  let g := (font.glyphs.lookup c.name).getD junkGlyph
  paintApply g.bitmap (relative_offset composedOffset c) w

/-- Paint every placement of `comps` onto an existing working bitmap. -/
def render_components_onto (font : BdfFont) (composedOffset : Int × Int)
    (work : Bitmap) (comps : List BdfComponent) : Bitmap :=
  comps.foldr (paint_component font composedOffset) work

/-- The pixel-wise union of all returned placements' constituent bitmaps, each
shifted to its returned offset, painted onto the all-zeros bitmap of the
composite's shape. -/
def render_components (font : BdfFont) (composed : Glyph)
    (comps : List BdfComponent) : Bitmap :=
  render_components_onto font composed.offset
    (bmZeros (bmRows composed.bitmap) (bmCols composed.bitmap)) comps

/-- Whether placement `c`'s constituent bitmap, shifted to its returned offset,
has ink at composite-bitmap position `(y, x)`. -/
def component_ink (font : BdfFont) (composedOffset : Int × Int)
    (c : BdfComponent) (y x : Nat) : Bool :=
  let g := (font.glyphs.lookup c.name).getD junkGlyph
  let r := relative_offset composedOffset c
  (pixList (bmRows g.bitmap) (bmCols g.bitmap)).any fun p =>
    bmGet g.bitmap p.1 p.2 && (r.1 + p.1 == y) && (r.2 + p.2 == x)

/-- Placement `c`'s constituent bitmap, shifted to its returned offset, stays
inside the composite bitmap's pixel grid. -/
def componentFits (font : BdfFont) (composedBitmap : Bitmap)
    (composedOffset : Int × Int) (c : BdfComponent) : Prop :=
  let g := (font.glyphs.lookup c.name).getD junkGlyph
  (relative_offset composedOffset c).1 + bmRows g.bitmap ≤ bmRows composedBitmap ∧
  (relative_offset composedOffset c).2 + bmCols g.bitmap ≤ bmCols composedBitmap

/-- The data of the conflicting-anchor warning printed by `add_anchors`
(source lines 1138-1143): the composite's codepoint, the anchor role, and the
two constituent names. -/
structure AnchorWarning where
  composedCodepoint : Int
  anchorName : String
  componentNames : List String
deriving DecidableEq

/-- The local variables accumulated by the base/combining identification loop
of `add_anchors` (source lines 1077-1094). -/
structure AnchorScan where
  baseName : Option String
  baseGlyphOffset : Int × Int
  baseOffset : Int × Int
  markName : Option String
  markSize : Nat × Nat
  markGlyphOffset : Int × Int
  markOffset : Int × Int
  anchorName : String
deriving DecidableEq

/-- One iteration of the identification loop: a component whose glyph codepoint
is in `combining_infos` fills the combining fields, any other fills the base
fields. -/
def anchor_scan_step (font : BdfFont) (st : AnchorScan) (c : BdfComponent) :
    AnchorScan :=
  let g := (font.glyphs.lookup c.name).getD junkGlyph
  match combining_infos.lookup g.codepoint with
  | some info =>
      { st with markName := some c.name, markSize := bmShape g.bitmap,
                markGlyphOffset := g.offset, markOffset := c.offset,
                anchorName := info.anchorRole }
  | none =>
      { st with baseName := some c.name, baseGlyphOffset := g.offset,
                baseOffset := c.offset }

/-- The synthesized mark-side attachment point in the mark's own bitmap
coordinates (source lines 1105-1110): horizontal mid-point, vertical top edge
for every role except `bottom`, `cedilla`, `ogonek`, whose point is at the
bottom edge. -/
def derived_mark_anchor_offset (anchorName : String) (markSize : Nat × Nat) :
    Int × Int :=
  if anchorName = "bottom" ∨ anchorName = "cedilla" ∨ anchorName = "ogonek" then
    (Int.ofNat markSize.1, Int.ofNat (markSize.2 / 2))
  else
    (0, Int.ofNat (markSize.2 / 2))

/-- The base-side anchor position derived by `add_anchors` (source lines
1119-1131): the mark-local attachment point translated into composite space by
the mark's placement offset, then re-expressed relative to the base's placement
offset and bitmap offset. -/
def derived_base_anchor (st : AnchorScan) (localOff : Int × Int) : Int × Int :=
  add_offset (subtract_offset (add_offset st.markOffset localOff) st.baseOffset)
    st.baseGlyphOffset

/-- Per-glyph anchor accumulation: glyph name to (role to position). -/
abbrev Anchors := List (String × List (String × (Int × Int)))

/-- Source `add_anchors`: accumulate mark-side and base-side anchors for a
composite that decomposed into exactly two placements of which exactly one is a
combining mark, skipping codepoints on the `custom_anchors` exclusion list;
returns the updated accumulation and the conflict warning, if one was
printed. -/
def add_anchors (anchors : Anchors) (font : BdfFont) (composedCodepoint : Int)
    (components : List BdfComponent) : Anchors × Option AnchorWarning :=
  if composedCodepoint ∈ custom_anchors then (anchors, none)
  else if components.length ≠ 2 then (anchors, none)
  else
    let st := components.foldl (anchor_scan_step font)
      ⟨none, (0, 0), (0, 0), none, (0, 0), (0, 0), (0, 0), ""⟩
    match st.baseName, st.markName with
    | some baseName, some markName =>
        let combiningAnchors := (anchors.lookup markName).getD []
        let step1 :=
          match combiningAnchors.lookup st.anchorName with
          | none =>
              let cao := derived_mark_anchor_offset st.anchorName st.markSize
              (aset combiningAnchors st.anchorName
                (add_offset st.markGlyphOffset cao), cao)
          | some stored => (combiningAnchors, subtract_offset stored st.markGlyphOffset)
        let anchors1 := aset anchors markName step1.1
        let anchorOffset := derived_base_anchor st step1.2
        let baseAnchors := (anchors1.lookup baseName).getD []
        match baseAnchors.lookup st.anchorName with
        | none =>
            (aset anchors1 baseName (aset baseAnchors st.anchorName anchorOffset),
             none)
        | some v =>
            if v ≠ anchorOffset then
              (anchors1,
               some ⟨composedCodepoint, st.anchorName, components.map (·.name)⟩)
            else (anchors1, none)
    | _, _ => (anchors, none)

/-- One row of the source's `axes_info` registry: display name, minimum,
maximum and default axis values (exact rationals standing for the source's
decimal literals). -/
structure AxisInfo where
  displayName : String
  min : ℚ
  max : ℚ
  dflt : ℚ
deriving DecidableEq

/-- The source's `axes_info` registry of the five variable axes. -/
def axes_info : List (String × AxisInfo) := [
  ("ESIZ", ⟨"Element Size", 1/10, 1, 1⟩),
  ("ROND", ⟨"Roundness", 0, 1, 0⟩),
  ("BLED", ⟨"Bleed", 0, 1, 0⟩),
  ("XESP", ⟨"Horizontal Element Spacing", 1/2, 1, 1⟩),
  ("EJIT", ⟨"Element Jitter", 0, 1/10, 0⟩)]

/-- One master: its accumulated name and its axis-tag to axis-value location
dict. -/
structure Master where
  name : String
  location : List (String × ℚ)
deriving DecidableEq

/-- One iteration of the axis loop of `get_masters` for master `masterIndex`:
`p` is the `(axis_index, axis)` pair; bit `axis_index` of `masterIndex` selects
minimum or maximum, extending the master's name with `tag + "min"/"max"` and
its location dict with the selected registry value. -/
def master_step (masterIndex : Nat) (m : Master) (p : Nat × String) : Master :=
  let info := (axes_info.lookup p.2).getD ⟨"", 0, 0, 0⟩
  if masterIndex &&& (1 <<< p.1) = 0 then
    ⟨m.name ++ p.2 ++ "min", aset m.location p.2 info.min⟩
  else
    ⟨m.name ++ p.2 ++ "max", aset m.location p.2 info.max⟩

/-- The registry value master `masterIndex` assigns to axis `a` sitting at
position `k` of the axis list: the minimum when bit `k` is clear, the maximum
when set. -/
def axis_corner_value (masterIndex k : Nat) (a : String) : ℚ :=
  if masterIndex &&& (1 <<< k) = 0 then
    ((axes_info.lookup a).getD ⟨"", 0, 0, 0⟩).min
  else
    ((axes_info.lookup a).getD ⟨"", 0, 0, 0⟩).max

/-- Source `get_masters`: for `N ≥ 1` active axes enumerate all `2^N` corner
masters, master `i` assigning axis `k` its registry minimum when bit `k` of `i`
is clear and its maximum when set, the name accumulating `tag + "min"/"max"` in
axis-list order; with no active axes, a single anonymous master. -/
def get_masters (variableAxes : List String) : List Master :=
  if variableAxes.length ≥ 1 then
    (List.range (2 ^ variableAxes.length)).map fun masterIndex =>
      variableAxes.enum.foldl (master_step masterIndex) ⟨"", []⟩
  else [⟨"", []⟩]

/-- The name a master's location dict determines: the concatenation, in
axis-list order, of each axis tag followed by `"min"` or `"max"` according to
the registry value the location assigns to that axis. -/
def masterNameOf (loc : List (String × ℚ)) : List String → String
  | [] => ""
  | a :: t =>
      a ++ (if loc.lookup a = some ((axes_info.lookup a).getD ⟨"", 0, 0, 0⟩).min
            then "min" else "max") ++ masterNameOf loc t

/-- Source `set_ufo_info` line ascender: pixel ascent scaled by the vertical
units-per-element factor. -/
def line_ascender (ascent upeY : Int) : Int := ascent * upeY

/-- Source `set_ufo_info` line descender: pixel descent scaled by the vertical
units-per-element factor. -/
def line_descender (descent upeY : Int) : Int := descent * upeY

/-- Source `set_ufo_info` line height: line ascender minus line descender. -/
def line_height (ascent descent upeY : Int) : Int :=
  line_ascender ascent upeY - line_descender descent upeY

/-- Source `set_ufo_info` em descender: `line_descender -
int((units_per_em - line_height) / 2)`, where Python's `int()` of the exact
half truncates toward zero (`Int.tdiv`). -/
def em_descender (unitsPerEm ascent descent upeY : Int) : Int :=
  line_descender descent upeY -
    Int.tdiv (unitsPerEm - line_height ascent descent upeY) 2

/-- Source `set_ufo_info` em ascender: `units_per_em + em_descender`. -/
def em_ascender (unitsPerEm ascent descent upeY : Int) : Int :=
  unitsPerEm + em_descender unitsPerEm ascent descent upeY

/-- Modelled from the spec: the spec's em-descender formula "descender =
line-descender − ⌊(unitsPerEm − lineHeight)/2⌋" read with genuine floor
division (`Int.fdiv`), stated for comparison with the source's truncating
`int()`. -/
def em_descender_floor_spec (unitsPerEm ascent descent upeY : Int) : Int :=
  line_descender descent upeY -
    Int.fdiv (unitsPerEm - line_height ascent descent upeY) 2

/-- Lower-case hexadecimal digit character for `n < 16`. -/
def hexDigitChar (n : Nat) : Char :=
  if n < 10 then Char.ofNat (48 + n) else Char.ofNat (87 + n)

/-- Python `f'{cp:04x}'` for codepoints below 0x10000: four lower-case hex
digits. -/
def hex4 (n : Nat) : String :=
  ⟨[hexDigitChar (n / 4096 % 16), hexDigitChar (n / 256 % 16),
    hexDigitChar (n / 16 % 16), hexDigitChar (n % 16)]⟩

/-- The synthesized glyph name `f'uni{combining_codepoint:04x}'` of source line
517. -/
def uniName (cp : Int) : String := "uni" ++ hex4 cp.toNat

/-- One iteration of the "Add undefined combining glyphs" loop of `load_bdf`
(source lines 507-526): when the entry's spacing-modifier codepoint has a glyph,
the combining codepoint has none, and the combining codepoint passes the
codepoint-subset filter, register a new glyph under the synthesized name
carrying the combining codepoint and the modifier glyph's bitmap, offset and
advance. `subset` stands for `match_codepoint(config.codepoint_subset, ·)`. -/
def add_combining_step (subset : Int → Bool) (f : BdfFont)
    (entry : Int × CombiningInfo) : BdfFont :=
  match entry.2.modifier with
  | none => f
  | some mc =>
      if (f.codepoints.lookup mc).isSome && !(f.codepoints.lookup entry.1).isSome
          && subset entry.1 then
        match f.codepoints.lookup mc with
        | some mname =>
            match f.glyphs.lookup mname with
            | some mg =>
                ⟨aset f.glyphs (uniName entry.1)
                   ⟨entry.1, mg.bitmap, mg.offset, mg.advance⟩,
                 aset f.codepoints entry.1 (uniName entry.1)⟩
            | none => f
        | none => f
      else f

/-- The full "Add undefined combining glyphs" pass of `load_bdf`: fold the step
over the `combining_infos` table in source order. -/
def add_undefined_combining_glyphs (subset : Int → Bool) (font : BdfFont) :
    BdfFont :=
  combining_infos.foldl (add_combining_step subset) font

/-! Concrete repositories used as witnesses and counterexamples. -/

/-- A 1×1 base glyph `A` (U+0041). -/
def exGlyphA : Glyph := ⟨65, [[true]], (0, 0), 1⟩

/-- A 1×1 combining acute accent glyph (U+0301). -/
def exGlyphAcute : Glyph := ⟨0x301, [[true]], (0, 0), 1⟩

/-- A 2×1 composite (U+00C1) that is exactly `A`'s bitmap with the acute's
bitmap one row below. -/
def exComposed : Glyph := ⟨0xc1, [[true], [true]], (0, 0), 1⟩

/-- A repository holding `A` and the acute accent. -/
def exFont : BdfFont :=
  ⟨[("A", exGlyphA), ("acute", exGlyphAcute)], [(65, "A"), (0x301, "acute")]⟩

/-- A 1×2 constituent (U+0041) for the overlap scenario. -/
def ovGlyphLeft : Glyph := ⟨65, [[true, true]], (0, 0), 2⟩

/-- A second 1×2 constituent (U+0042) for the overlap scenario. -/
def ovGlyphRight : Glyph := ⟨66, [[true, true]], (0, 0), 2⟩

/-- A 1×3 composite that is only coverable by overlapping the two 1×2
constituents. -/
def ovComposed : Glyph := ⟨67, [[true, true, true]], (0, 0), 3⟩

/-- A repository holding the two overlap constituents. -/
def ovFont : BdfFont :=
  ⟨[("A", ovGlyphLeft), ("B", ovGlyphRight)], [(65, "A"), (66, "B")]⟩

/-- A composite whose codepoint is U+02CB, the spacing-modifier equivalent of
the combining grave accent U+0300: decomposing it through U+0300 is a
self-reference. -/
def selfComposed : Glyph := ⟨0x2cb, [[true]], (0, 0), 1⟩

/-- A spacing modifier-letter glyph (U+02CB, modifier letter grave accent). -/
def modGlyph : Glyph := ⟨0x2cb, [[true], [false]], (3, 1), 2⟩

/-- A repository holding only the spacing grave modifier, so that `load_bdf`
synthesizes the combining grave U+0300 from it. -/
def modFont : BdfFont := ⟨[("gravemod", modGlyph)], [(0x2cb, "gravemod")]⟩

/-! Helper lemmas about dict assignment on association lists. -/

theorem aset_lookup_self {α β : Type} [BEq α] [LawfulBEq α]
    (l : List (α × β)) (k : α) (v : β) : (aset l k v).lookup k = some v := by
  induction l with
  | nil => simp [aset, List.lookup]
  | cons p t ih =>
      obtain ⟨a, b⟩ := p
      by_cases h : a = k
      · subst h
        simp [aset, List.lookup]
      · simp [aset, beq_false_of_ne h, beq_false_of_ne (Ne.symm h), List.lookup, ih]

theorem aset_lookup_ne {α β : Type} [BEq α] [LawfulBEq α]
    {k k' : α} (h : k' ≠ k) (l : List (α × β)) (v : β) :
    (aset l k v).lookup k' = l.lookup k' := by
  induction l with
  | nil => simp [aset, List.lookup, beq_false_of_ne h]
  | cons p t ih =>
      obtain ⟨a, b⟩ := p
      by_cases hp : a = k
      · subst hp
        simp [aset, List.lookup, beq_false_of_ne h]
      · simp [aset, beq_false_of_ne hp, List.lookup, ih]

/-- C10: the Component Search Engine accepts overlapping placements. Painting
a constituent only requires each ink pixel to coincide with composite ink —
the success of `paint_bdf_glyph` is independent of the working bitmap already
accumulated — and on the concrete 1×3 composite `ovComposed` with the two 1×2
constituents the search succeeds with two placements whose shifted ink pixels
both cover pixel (0, 1): exact coverage does not imply disjoint coverage. -/
theorem search_accepts_overlapping_placements :
    (∀ (composed comp : Bitmap) (off : Nat × Nat) (w1 w2 : Bitmap),
      (paint_bdf_glyph composed comp off w1).isSome =
        (paint_bdf_glyph composed comp off w2).isSome) ∧
    get_bdf_components ovFont ovComposed [65, 66] (bmZeros 1 3) =
      .success [⟨"B", (0, 1)⟩, ⟨"A", (0, 0)⟩] ∧
    component_ink ovFont ovComposed.offset ⟨"B", (0, 1)⟩ 0 1 = true ∧
    component_ink ovFont ovComposed.offset ⟨"A", (0, 0)⟩ 0 1 = true := by
  refine ⟨fun composed comp off w1 w2 => ?_, by decide, by decide, by decide⟩
  unfold paint_bdf_glyph
  cases paintCheck composed comp off <;> simp

/-- C4: if the recursive call on the remaining constituents returns `missing`
or `uncomposable`, the offset loop returns that classification immediately,
without attempting any further offset at the current level; and a stage-2
self-reference — the combining mark's spacing-modifier substitute equals the
composite under construction — yields `uncomposable` (stated here for a
constituent with no glyph of its own, the case in which stage 2 is the only
resolution). -/
theorem search_propagates_nonrecoverable :
    (∀ (recur : Bitmap → SearchResult) (composed : Glyph) (name : String)
        (g : Glyph) (work w : Bitmap) (off : Nat × Nat) (offs : List (Nat × Nat)),
      paint_bdf_glyph composed.bitmap g.bitmap off work = some w →
      (recur w = .missing ∨ recur w = .uncomposable) →
      tryOffsets recur composed name g work (off :: offs) = some (recur w)) ∧
    (∀ (font : BdfFont) (composed : Glyph) (cc : Int) (rest : List Int)
        (work : Bitmap) (info : CombiningInfo),
      font.codepoints.lookup cc = none →
      combining_infos.lookup cc = some info →
      info.modifier = some composed.codepoint →
      get_bdf_components font composed (cc :: rest) work = .uncomposable) := by
  constructor
  · intro recur composed name g work w off offs hp hr
    unfold tryOffsets
    rw [hp]
    rcases hr with h | h <;> simp [h]
  · intro font composed cc rest work info h1 h2 h3
    simp [get_bdf_components, search_stage2, h1, h2, h3]

/-- Witness for C4 at concrete inputs: a constant `missing` continuation is
propagated from the very first offset, and decomposing the spacing grave
U+02CB through the markless combining grave U+0300 is `uncomposable`. -/
theorem search_propagates_nonrecoverable_witness :
    tryOffsets (fun _ => SearchResult.missing) exComposed "A" exGlyphA
      (bmZeros 2 1) [(0, 0), (1, 0)] = some SearchResult.missing ∧
    get_bdf_components exFont selfComposed [0x300] (bmZeros 1 1) =
      SearchResult.uncomposable := by
  constructor
  · exact search_propagates_nonrecoverable.1 (fun _ => SearchResult.missing)
      exComposed "A" exGlyphA (bmZeros 2 1) _ (0, 0) [(1, 0)] rfl (Or.inl rfl)
  · exact search_propagates_nonrecoverable.2 exFont selfComposed 0x300 []
      (bmZeros 1 1) ⟨"grave accent", "top", some 0x2cb⟩ rfl rfl rfl

/-- C8 counterexample: the source computes the em descender with Python
`int()`, which truncates toward zero, not floor division. At
`unitsPerEm = 1000`, `ascent = 3`, `descent = 0`, `units_per_element_y = 401`
the line height 1203 exceeds the em square, the argument `(1000 − 1203)` is
negative and odd, and the source's value 101 differs from the spec's floor
formula value 102. -/
theorem em_descender_truncates_not_floors :
    em_descender 1000 3 0 401 = 101 ∧
    em_descender_floor_spec 1000 3 0 401 = 102 ∧
    em_descender 1000 3 0 401 ≠ em_descender_floor_spec 1000 3 0 401 := by
  refine ⟨by decide, by decide, by decide⟩

/-- C8 amended: the em descender is the line descender minus the
toward-zero-truncated half of `(unitsPerEm − lineHeight)`; this coincides with
the spec's floor formula whenever the line height does not exceed the em
square, and the em ascender is `unitsPerEm + descender` unconditionally. -/
theorem em_metrics_formula (unitsPerEm ascent descent upeY : Int) :
    em_descender unitsPerEm ascent descent upeY =
      line_descender descent upeY -
        Int.tdiv (unitsPerEm - line_height ascent descent upeY) 2 ∧
    (line_height ascent descent upeY ≤ unitsPerEm →
      em_descender unitsPerEm ascent descent upeY =
        em_descender_floor_spec unitsPerEm ascent descent upeY) ∧
    em_ascender unitsPerEm ascent descent upeY =
      unitsPerEm + em_descender unitsPerEm ascent descent upeY := by
  refine ⟨rfl, fun h => ?_, rfl⟩
  unfold em_descender em_descender_floor_spec
  rw [Int.fdiv_eq_tdiv (Int.sub_nonneg.mpr h) (by decide)]

/-- Witness for C8 amended at a realistic input (`unitsPerEm = 2048`, ascent 7,
descent −2, `units_per_element_y = 227`): line height 2043 fits in the em
square, so the truncating and floor formulas agree there. -/
theorem em_metrics_formula_witness :
    em_descender 2048 7 (-2) 227 = em_descender_floor_spec 2048 7 (-2) 227 :=
  (em_metrics_formula 2048 7 (-2) 227).2.1 (by decide)

set_option maxRecDepth 8000 in
/-- C3 counterexample: for the inked glyph `A` given the decomposition string
`"<compat> 0020"` (the real Unicode decomposition of U+2002 EN SPACE), the
stripped string `"0020"` survives the empty/tag early return, parses to
`[0x20]`, and becomes the empty constituent list only after the space
separator filter — yet `decompose_bdf_glyph` still invokes the Component
Search Engine, which classifies the empty list against the inked bitmap as
`mismatch`, and the source prints the "cannot be composed" warning; the spec's
never-invoked variant returns silently. The glyph is rendered from its raw
bitmap in both cases. -/
theorem decompose_empty_still_invokes_search :
    decompose_bdf_glyph exFont "A" "<compat> 0020" =
      ([], some DecomposeLog.warnCannotCompose) ∧
    decompose_bdf_glyph_spec_skips_empty exFont "A" "<compat> 0020" =
      ([], none) ∧
    decompose_bdf_glyph exFont "A" "<compat> 0020" ≠
      decompose_bdf_glyph_spec_skips_empty exFont "A" "<compat> 0020" := by
  refine ⟨by decide, by decide, by decide⟩

/-- C3 amended: when the decomposition string is empty or still carries a tag
after `<compat>` stripping, `decompose_bdf_glyph` returns at lines 972-973
before the search — the Component Search Engine is never invoked and the glyph
is rendered from its raw bitmap. But when the constituent sequence becomes
empty only after the space separator 0x20 is filtered out, the engine IS
invoked with the empty list, and the "cannot be composed" warning is printed
exactly when the glyph's bitmap has ink; the returned component list is empty
in every such case, so the glyph is still always rendered from its raw
bitmap. -/
theorem decompose_empty_renders_raw (font : BdfFont) (name : String)
    (dstr : String) (g : Glyph) (ds : List Char)
    (hg : font.glyphs.lookup name = some g)
    (hds : ds = stripCompat dstr.data) :
    ((ds = [] ∨ charsStartWith "<".data ds = true) →
      decompose_bdf_glyph font name dstr = ([], none) ∧
      renders_from_raw_bitmap (decompose_bdf_glyph font name dstr).1 = true) ∧
    (¬(ds = [] ∨ charsStartWith "<".data ds = true) →
      parse_decomposition ds = [] →
      (decompose_bdf_glyph font name dstr).1 = [] ∧
      renders_from_raw_bitmap (decompose_bdf_glyph font name dstr).1 = true ∧
      ((decompose_bdf_glyph font name dstr).2 = some DecomposeLog.warnCannotCompose ↔
        g.bitmap ≠ bmZeros (bmRows g.bitmap) (bmCols g.bitmap))) := by
  subst hds
  constructor
  · intro hcond
    unfold decompose_bdf_glyph
    rw [if_pos hcond]
    exact ⟨rfl, rfl⟩
  · intro hcond hempty
    have hsearch : get_bdf_components font g []
        (bmZeros (bmRows g.bitmap) (bmCols g.bitmap)) =
        if g.bitmap = bmZeros (bmRows g.bitmap) (bmCols g.bitmap) then .success []
        else .mismatch := rfl
    unfold decompose_bdf_glyph
    rw [if_neg hcond, hempty]
    unfold process_decomposition
    rw [hg]
    simp only [Option.getD_some]
    rw [hsearch]
    by_cases h : g.bitmap = bmZeros (bmRows g.bitmap) (bmCols g.bitmap)
    · rw [if_pos h]
      exact ⟨rfl, rfl, iff_of_false (by decide) (fun hne => hne h)⟩
    · rw [if_neg h]
      exact ⟨rfl, rfl, iff_of_true rfl h⟩

set_option maxRecDepth 8000 in
/-- Witness for C3 amended: the glyph `A` first with the empty decomposition
string (early return, no log), then with `"<compat> 0020"` (filtered to the
empty constituent list, search invoked, warning printed since `A` has ink). -/
theorem decompose_empty_renders_raw_witness :
    (decompose_bdf_glyph exFont "A" "" = ([], none) ∧
      renders_from_raw_bitmap (decompose_bdf_glyph exFont "A" "").1 = true) ∧
    ((decompose_bdf_glyph exFont "A" "<compat> 0020").1 = [] ∧
      renders_from_raw_bitmap
        (decompose_bdf_glyph exFont "A" "<compat> 0020").1 = true ∧
      ((decompose_bdf_glyph exFont "A" "<compat> 0020").2 =
          some DecomposeLog.warnCannotCompose ↔
        exGlyphA.bitmap ≠
          bmZeros (bmRows exGlyphA.bitmap) (bmCols exGlyphA.bitmap))) := by
  constructor
  · exact (decompose_empty_renders_raw exFont "A" "" exGlyphA
      (stripCompat ("" : String).data) rfl rfl).1 (by decide)
  · exact (decompose_empty_renders_raw exFont "A" "<compat> 0020" exGlyphA
      (stripCompat ("<compat> 0020" : String).data) rfl rfl).2
      (by decide) (by decide)

/-- C2 counterexample: on the composite U+00C1 with constituents
`[U+0041, U+0301]` the search succeeds, but the returned list has the combining
mark's placement first and the base `A`'s placement last — there is no tail for
which the result starts with `A`'s placement, contradicting "the placement for
c1 first" and the scenario's expected `[{A, (0,0)}, {mark, (dy,dx)}]`. -/
theorem search_returns_base_last_counterexample :
    get_bdf_components exFont exComposed [65, 0x301] (bmZeros 2 1) =
      .success [⟨"acute", (1, 0)⟩, ⟨"A", (0, 0)⟩] ∧
    ¬ ∃ tail, get_bdf_components exFont exComposed [65, 0x301] (bmZeros 2 1) =
        .success (⟨"A", (0, 0)⟩ :: tail) := by
  constructor
  · decide
  · rintro ⟨tail, h⟩
    have hc : get_bdf_components exFont exComposed [65, 0x301] (bmZeros 2 1) =
        .success [⟨"acute", (1, 0)⟩, ⟨"A", (0, 0)⟩] := by decide
    rw [hc] at h
    simp [BdfComponent.mk.injEq] at h

/-- A successful offset loop always places the current constituent at the end
of the returned list, at one of the tried offsets. -/
theorem tryOffsets_success_last (recur : Bitmap → SearchResult) (composed : Glyph)
    (name : String) (g : Glyph) (work : Bitmap) (offs : List (Nat × Nat))
    (comps : List BdfComponent)
    (h : tryOffsets recur composed name g work offs = some (.success comps)) :
    ∃ inner off,
      comps = inner ++
        [⟨name, add_offset composed.offset (Int.ofNat off.1, Int.ofNat off.2)⟩] ∧
      off ∈ offs := by
  induction offs with
  | nil => simp [tryOffsets] at h
  | cons off offs ih =>
      unfold tryOffsets at h
      cases hp : paint_bdf_glyph composed.bitmap g.bitmap off work with
      | none =>
          simp only [hp] at h
          obtain ⟨inner, off', heq, hmem⟩ := ih h
          exact ⟨inner, off', heq, List.mem_cons_of_mem _ hmem⟩
      | some w =>
          simp only [hp] at h
          cases hr : recur w with
          | missing => simp only [hr] at h; simp at h
          | uncomposable => simp only [hr] at h; simp at h
          | mismatch =>
              simp only [hr] at h
              obtain ⟨inner, off', heq, hmem⟩ := ih h
              exact ⟨inner, off', heq, List.mem_cons_of_mem _ hmem⟩
          | success comps' =>
              simp only [hr, Option.some.injEq, SearchResult.success.injEq] at h
              exact ⟨comps', off, h.symm, List.mem_cons_self _ _⟩

/-- A successful `search_stage2` places the spacing-modifier substitute of the
current constituent at the end of the returned list. -/
theorem search_stage2_success_last (font : BdfFont) (composed : Glyph)
    (recur : Bitmap → SearchResult) (cc : Int) (work : Bitmap)
    (comps : List BdfComponent)
    (h : search_stage2 font composed recur cc work = .success comps) :
    ∃ inner last info mc, comps = inner ++ [last] ∧
      combining_infos.lookup cc = some info ∧ info.modifier = some mc ∧
      font.codepoints.lookup mc = some last.name := by
  unfold search_stage2 at h
  cases hci : combining_infos.lookup cc with
  | none =>
      simp only [hci] at h
      by_cases hs : (font.codepoints.lookup cc).isSome <;> simp [hs] at h
  | some info =>
      simp only [hci] at h
      cases hmod : info.modifier with
      | none => simp only [hmod] at h; simp at h
      | some mc =>
          simp only [hmod] at h
          by_cases hself : mc = composed.codepoint
          · simp [hself] at h
          · rw [if_neg hself] at h
            cases hmc : font.codepoints.lookup mc with
            | none => simp only [hmc] at h; simp at h
            | some name =>
                simp only [hmc] at h
                cases hto : tryOffsets recur composed name
                    ((font.glyphs.lookup name).getD junkGlyph) work
                    (offsetList composed.bitmap
                      ((font.glyphs.lookup name).getD junkGlyph).bitmap) with
                | none =>
                    simp only [hto] at h
                    by_cases hs : (font.codepoints.lookup mc).isSome <;>
                      simp [hs] at h
                | some r =>
                    simp only [hto] at h
                    subst h
                    obtain ⟨inner, off, heq, _⟩ :=
                      tryOffsets_success_last recur composed name _ work _ _ hto
                    exact ⟨inner, _, info, mc, heq, rfl, hmod, hmc⟩

/-- C2 amended: for every successful search over constituents c1, ..., cn the
returned placement list is ordered outermost constituent last — the placement
for c1 (resolved either directly or through its spacing-modifier substitute)
is the final element — and in the concrete base-plus-mark scenario the search
returns the combining mark's placement first and the base glyph's placement
second. -/
theorem search_returns_outermost_last (font : BdfFont) (composed : Glyph)
    (cc : Int) (rest : List Int) (work : Bitmap) (comps : List BdfComponent)
    (h : get_bdf_components font composed (cc :: rest) work = .success comps) :
    (∃ inner last, comps = inner ++ [last] ∧
      (font.codepoints.lookup cc = some last.name ∨
       ∃ info mc, combining_infos.lookup cc = some info ∧
         info.modifier = some mc ∧ font.codepoints.lookup mc = some last.name)) ∧
    get_bdf_components exFont exComposed [65, 0x301] (bmZeros 2 1) =
      .success [⟨"acute", (1, 0)⟩, ⟨"A", (0, 0)⟩] := by
  refine ⟨?_, by decide⟩
  unfold get_bdf_components at h
  cases hcc : font.codepoints.lookup cc with
  | none =>
      simp only [hcc] at h
      obtain ⟨inner, last, info, mc, heq, hci, hmod, hmc⟩ :=
        search_stage2_success_last font composed _ cc work comps h
      exact ⟨inner, last, heq, Or.inr ⟨info, mc, hci, hmod, hmc⟩⟩
  | some name =>
      simp only [hcc] at h
      cases hto : tryOffsets (fun w => get_bdf_components font composed rest w)
          composed name ((font.glyphs.lookup name).getD junkGlyph) work
          (offsetList composed.bitmap
            ((font.glyphs.lookup name).getD junkGlyph).bitmap) with
      | some r =>
          simp only [hto] at h
          subst h
          obtain ⟨inner, off, heq, _⟩ :=
            tryOffsets_success_last _ composed name _ work _ _ hto
          exact ⟨inner, _, heq, Or.inl rfl⟩
      | none =>
          simp only [hto] at h
          obtain ⟨inner, last, info, mc, heq, hci, hmod, hmc⟩ :=
            search_stage2_success_last font composed _ cc work comps h
          exact ⟨inner, last, heq, Or.inr ⟨info, mc, hci, hmod, hmc⟩⟩

/-- When a composite decomposes into exactly one base and one combining mark
(in either order), the mark-side entry of the anchor accumulation after
`add_anchors` gains the synthesized canonical attachment point when the role
was new, and is unchanged when the role was already recorded. -/
theorem add_anchors_mark_entry (anchors : Anchors) (font : BdfFont) (ccp : Int)
    (components : List BdfComponent) (cb cm : BdfComponent)
    (gb gm : Glyph) (info : CombiningInfo)
    (horder : components = [cb, cm] ∨ components = [cm, cb])
    (hex : ccp ∉ custom_anchors)
    (hgb : font.glyphs.lookup cb.name = some gb)
    (hgm : font.glyphs.lookup cm.name = some gm)
    (hbase : combining_infos.lookup gb.codepoint = none)
    (hmark : combining_infos.lookup gm.codepoint = some info) :
    ((add_anchors anchors font ccp components).1.lookup cm.name).getD [] =
      (match ((anchors.lookup cm.name).getD []).lookup info.anchorRole with
       | none =>
           aset ((anchors.lookup cm.name).getD []) info.anchorRole
             (add_offset gm.offset
               (derived_mark_anchor_offset info.anchorRole (bmShape gm.bitmap)))
       | some _ => (anchors.lookup cm.name).getD []) := by
  have hne : cb.name ≠ cm.name := by
    intro he
    rw [he, hgm] at hgb
    rw [Option.some.injEq] at hgb
    rw [← hgb, hmark] at hbase
    cases hbase
  have hne' : cm.name ≠ cb.name := Ne.symm hne
  rcases horder with rfl | rfl <;>
  · unfold add_anchors
    rw [if_neg hex, if_neg (by simp)]
    simp only [List.foldl_cons, List.foldl_nil, anchor_scan_step, hgb, hgm,
      Option.getD_some, hbase, hmark]
    cases hms : ((anchors.lookup cm.name).getD []).lookup info.anchorRole with
    | none =>
        split
        · simp [aset_lookup_self, aset_lookup_ne hne']
        · split <;> simp [aset_lookup_self, aset_lookup_ne hne']
    | some stored =>
        split
        · simp [aset_lookup_self, aset_lookup_ne hne']
        · split <;> simp [aset_lookup_self, aset_lookup_ne hne']

/-- C5: for a composite that decomposes into exactly two placements of which
exactly one is a combining mark, with a codepoint off the custom-anchor
exclusion list: when the mark has no anchor recorded for the mark's role the
synthesized mark-side anchor sits at the horizontal mid-point of the mark's
bounding box with vertical position at the top edge (row 0), or the bottom
edge (row = bitmap height) for roles `bottom`, `cedilla`, `ogonek` — stored
relative to the mark's own bitmap offset; when an anchor for that role already
exists, the stored value is reused unchanged. -/
theorem mark_anchor_synthesis (anchors : Anchors) (font : BdfFont) (ccp : Int)
    (components : List BdfComponent) (cb cm : BdfComponent)
    (gb gm : Glyph) (info : CombiningInfo)
    (horder : components = [cb, cm] ∨ components = [cm, cb])
    (hex : ccp ∉ custom_anchors)
    (hgb : font.glyphs.lookup cb.name = some gb)
    (hgm : font.glyphs.lookup cm.name = some gm)
    (hbase : combining_infos.lookup gb.codepoint = none)
    (hmark : combining_infos.lookup gm.codepoint = some info) :
    (((anchors.lookup cm.name).getD []).lookup info.anchorRole = none →
      (((add_anchors anchors font ccp components).1.lookup cm.name).getD
          []).lookup info.anchorRole =
        some (add_offset gm.offset
          (derived_mark_anchor_offset info.anchorRole (bmShape gm.bitmap)))) ∧
    (∀ stored,
      ((anchors.lookup cm.name).getD []).lookup info.anchorRole = some stored →
      (((add_anchors anchors font ccp components).1.lookup cm.name).getD
          []).lookup info.anchorRole = some stored) := by
  have key := add_anchors_mark_entry anchors font ccp components cb cm gb gm
    info horder hex hgb hgm hbase hmark
  constructor
  · intro hnone
    rw [key, hnone]
    exact aset_lookup_self _ _ _
  · intro stored hstored
    rw [key, hstored]
    exact hstored

/-- Witness for C5 at the concrete Á decomposition with an empty accumulation:
the acute mark (role `top.shifted`, 1×1 bitmap) gets the synthesized anchor at
its offset plus (0, 0). -/
theorem mark_anchor_synthesis_witness :
    (((add_anchors [] exFont 0xc1
        [⟨"acute", (1, 0)⟩, ⟨"A", (0, 0)⟩]).1.lookup "acute").getD
        []).lookup "top.shifted" =
      some (add_offset exGlyphAcute.offset
        (derived_mark_anchor_offset "top.shifted" (bmShape exGlyphAcute.bitmap))) :=
  (mark_anchor_synthesis [] exFont 0xc1 [⟨"acute", (1, 0)⟩, ⟨"A", (0, 0)⟩]
    ⟨"A", (0, 0)⟩ ⟨"acute", (1, 0)⟩ exGlyphA exGlyphAcute
    ⟨"acute accent", "top.shifted", some 0x2ca⟩
    (Or.inr rfl) (by decide) rfl rfl rfl rfl).1 rfl

/-- C6: once a base-side anchor position `v` has been recorded for a (base
glyph, role) pair, a later composite deriving position `d` for the same pair
never overwrites it: the first-recorded `v` is kept; when `d` disagrees a
warning naming the conflicting composite and the two constituent names is
emitted, and when `d` agrees no warning is emitted (the run continues in
either case — `add_anchors` is total). -/
theorem base_anchor_first_value_wins (anchors : Anchors) (font : BdfFont)
    (ccp : Int) (components : List BdfComponent) (cb cm : BdfComponent)
    (gb gm : Glyph) (info : CombiningInfo) (v d : Int × Int)
    (horder : components = [cb, cm] ∨ components = [cm, cb])
    (hex : ccp ∉ custom_anchors)
    (hgb : font.glyphs.lookup cb.name = some gb)
    (hgm : font.glyphs.lookup cm.name = some gm)
    (hbase : combining_infos.lookup gb.codepoint = none)
    (hmark : combining_infos.lookup gm.codepoint = some info)
    (hstored : ((anchors.lookup cb.name).getD []).lookup info.anchorRole = some v)
    (hd : d = add_offset (subtract_offset (add_offset cm.offset
      (match ((anchors.lookup cm.name).getD []).lookup info.anchorRole with
       | none => derived_mark_anchor_offset info.anchorRole (bmShape gm.bitmap)
       | some stored => subtract_offset stored gm.offset)) cb.offset) gb.offset) :
    (((add_anchors anchors font ccp components).1.lookup cb.name).getD
        []).lookup info.anchorRole = some v ∧
    (d ≠ v → (add_anchors anchors font ccp components).2 =
      some ⟨ccp, info.anchorRole, components.map (fun c => c.name)⟩) ∧
    (d = v → (add_anchors anchors font ccp components).2 = none) := by
  have hne : cb.name ≠ cm.name := by
    intro he
    rw [he, hgm] at hgb
    rw [Option.some.injEq] at hgb
    rw [← hgb, hmark] at hbase
    cases hbase
  have hne' : cm.name ≠ cb.name := Ne.symm hne
  subst hd
  rcases horder with rfl | rfl <;>
  · unfold add_anchors
    rw [if_neg hex, if_neg (by simp)]
    simp only [List.foldl_cons, List.foldl_nil, anchor_scan_step, hgb, hgm,
      Option.getD_some, hbase, hmark, derived_base_anchor]
    cases hms : ((anchors.lookup cm.name).getD []).lookup info.anchorRole with
    | none =>
        simp only [aset_lookup_ne hne, hstored]
        by_cases hdv :
            v = add_offset (subtract_offset (add_offset cm.offset
              (derived_mark_anchor_offset info.anchorRole (bmShape gm.bitmap)))
              cb.offset) gb.offset
        · rw [if_neg (show ¬(v ≠ _) from fun hc => hc hdv)]
          exact ⟨by simp only [aset_lookup_ne hne, hstored],
            fun hc => absurd hdv.symm hc, fun _ => rfl⟩
        · rw [if_pos hdv]
          exact ⟨by simp only [aset_lookup_ne hne, hstored],
            fun _ => rfl, fun hc => absurd hc.symm hdv⟩
    | some stored =>
        simp only [aset_lookup_ne hne, hstored]
        by_cases hdv :
            v = add_offset (subtract_offset (add_offset cm.offset
              (subtract_offset stored gm.offset)) cb.offset) gb.offset
        · rw [if_neg (show ¬(v ≠ _) from fun hc => hc hdv)]
          exact ⟨by simp only [aset_lookup_ne hne, hstored],
            fun hc => absurd hdv.symm hc, fun _ => rfl⟩
        · rw [if_pos hdv]
          exact ⟨by simp only [aset_lookup_ne hne, hstored],
            fun _ => rfl, fun hc => absurd hc.symm hdv⟩

/-- Witness for C6 at the concrete Á decomposition with a pre-recorded
conflicting base anchor (9, 9): the first value is kept and the warning names
composite U+00C1 and the two constituent names. -/
theorem base_anchor_first_value_wins_witness :
    (((add_anchors [("A", [("top.shifted", ((9 : Int), (9 : Int)))])] exFont 0xc1
        [⟨"acute", (1, 0)⟩, ⟨"A", (0, 0)⟩]).1.lookup "A").getD
        []).lookup "top.shifted" = some (9, 9) ∧
    (add_anchors [("A", [("top.shifted", ((9 : Int), (9 : Int)))])] exFont 0xc1
        [⟨"acute", (1, 0)⟩, ⟨"A", (0, 0)⟩]).2 =
      some ⟨0xc1, "top.shifted", ["acute", "A"]⟩ := by
  have h := base_anchor_first_value_wins
    [("A", [("top.shifted", ((9 : Int), (9 : Int)))])] exFont 0xc1
    [⟨"acute", (1, 0)⟩, ⟨"A", (0, 0)⟩] ⟨"A", (0, 0)⟩ ⟨"acute", (1, 0)⟩
    exGlyphA exGlyphAcute ⟨"acute accent", "top.shifted", some 0x2ca⟩
    (9, 9) (1, 0) (Or.inr rfl) (by decide) rfl rfl rfl rfl rfl (by decide)
  exact ⟨h.1, h.2.1 (by decide)⟩

/-- A successful association-list lookup exhibits a member pair. -/
theorem lookup_mem {α β : Type} [BEq α] [LawfulBEq α]
    {l : List (α × β)} {k : α} {v : β} (h : l.lookup k = some v) : (k, v) ∈ l := by
  induction l with
  | nil => cases h
  | cons p t ih =>
      obtain ⟨a, b⟩ := p
      by_cases ha : k = a
      · subst ha
        simp [List.lookup] at h
        subst h
        exact List.mem_cons_self _ _
      · simp only [List.lookup, beq_false_of_ne ha] at h
        exact List.mem_cons_of_mem _ (ih h)

/-- In the source's axis registry every axis has distinct minimum and
maximum values. -/
theorem axes_info_min_ne_max : ∀ p ∈ axes_info, p.2.min ≠ p.2.max := by
  intro p hp
  fin_cases hp <;> norm_num

/-- The bit test of `get_masters` agrees with `Nat.testBit`. -/
theorem and_shift_eq_zero (i b : Nat) :
    (i &&& (1 <<< b) = 0) ↔ i.testBit b = false := by
  rw [Nat.one_shiftLeft, Nat.and_two_pow]
  cases h : i.testBit b
  · simp
  · simp [Nat.pow_eq_zero]

/-- Axes not named in the remaining pair list keep their location entry across
the master fold. -/
theorem master_fold_loc_notmem (i : Nat) (l : List (Nat × String)) (m : Master)
    (a : String) (h : ∀ p ∈ l, p.2 ≠ a) :
    (l.foldl (master_step i) m).location.lookup a = m.location.lookup a := by
  induction l generalizing m with
  | nil => rfl
  | cons p t ih =>
      rw [List.foldl_cons, ih _ (fun q hq => h q (List.mem_cons_of_mem _ hq))]
      unfold master_step
      by_cases hbit : i &&& (1 <<< p.1) = 0 <;>
        simp [hbit, aset_lookup_ne (Ne.symm (h p (List.mem_cons_self _ _)))]

/-- Location of axis `k` of the axis list after the master fold: the corner
value selected by bit `s + k` of the master index. -/
theorem master_fold_loc (i : Nat) (va : List String) :
    ∀ (s : Nat) (m : Master), va.Nodup →
    ∀ (k : Nat) (hk : k < va.length),
    ((List.enumFrom s va).foldl (master_step i) m).location.lookup
        (va.get ⟨k, hk⟩) =
      some (axis_corner_value i (s + k) (va.get ⟨k, hk⟩)) := by
  induction va with
  | nil => intro s m _ k hk; cases hk
  | cons a t ih =>
      intro s m hnd k hk
      have hat : a ∉ t := (List.nodup_cons.mp hnd).1
      have hndt : t.Nodup := (List.nodup_cons.mp hnd).2
      rw [List.enumFrom_cons, List.foldl_cons]
      cases k with
      | zero =>
          show ((List.enumFrom (s + 1) t).foldl (master_step i)
              (master_step i m (s, a))).location.lookup a =
            some (axis_corner_value i (s + 0) a)
          rw [master_fold_loc_notmem i _ _ a
            (fun p hp he => hat (he ▸ List.snd_mem_of_mem_enumFrom hp))]
          unfold master_step
          by_cases hbit : i &&& (1 <<< s) = 0 <;>
            simp [hbit, aset_lookup_self, axis_corner_value]
      | succ k =>
          show ((List.enumFrom (s + 1) t).foldl (master_step i)
              (master_step i m (s, a))).location.lookup
              (t.get ⟨k, Nat.lt_of_succ_lt_succ hk⟩) =
            some (axis_corner_value i (s + (k + 1))
              (t.get ⟨k, Nat.lt_of_succ_lt_succ hk⟩))
          have harith : s + 1 + k = s + (k + 1) := by omega
          rw [← harith]
          exact ih (s + 1) _ hndt k (Nat.lt_of_succ_lt_succ hk)

/-- The master fold's accumulated name appends, for each axis in order, the
axis tag and the min/max token that the fold's final location records for that
axis. -/
theorem master_fold_name (i : Nat) (va : List String) :
    ∀ (s : Nat) (m : Master), va.Nodup →
    (∀ a ∈ va, (axes_info.lookup a).isSome) →
    ((List.enumFrom s va).foldl (master_step i) m).name =
      m.name ++ masterNameOf
        ((List.enumFrom s va).foldl (master_step i) m).location va := by
  induction va with
  | nil =>
      intro s m _ _
      show m.name = m.name ++ masterNameOf m.location []
      rw [masterNameOf, String.append_empty]
  | cons a t ih =>
      intro s m hnd hval
      have hat : a ∉ t := (List.nodup_cons.mp hnd).1
      have hndt : t.Nodup := (List.nodup_cons.mp hnd).2
      rw [List.enumFrom_cons, List.foldl_cons]
      rw [ih (s + 1) (master_step i m (s, a)) hndt
        (fun b hb => hval b (List.mem_cons_of_mem _ hb))]
      have hnotmem := master_fold_loc_notmem i (List.enumFrom (s + 1) t)
        (master_step i m (s, a)) a
        (fun p hp he => hat (he ▸ List.snd_mem_of_mem_enumFrom hp))
      obtain ⟨info, hinfo⟩ :=
        Option.isSome_iff_exists.mp (hval a (List.mem_cons_self _ _))
      have hmm := axes_info_min_ne_max _ (lookup_mem hinfo)
      by_cases hbit : i &&& (1 <<< s) = 0
      · have hstep : master_step i m (s, a) =
            ⟨m.name ++ (a ++ "min"), aset m.location a info.min⟩ := by
          unfold master_step
          rw [hinfo]
          simp only [Option.getD_some, if_pos hbit, String.append_assoc]
        rw [hstep] at hnotmem ⊢
        have hlook : (List.foldl (master_step i)
            (⟨m.name ++ (a ++ "min"), aset m.location a info.min⟩ : Master)
            (List.enumFrom (s + 1) t)).location.lookup a = some info.min := by
          rw [hnotmem]
          exact aset_lookup_self _ _ _
        conv_rhs => rw [masterNameOf]
        simp only [hlook, hinfo, Option.getD_some, eq_self_iff_true, if_true,
          String.append_assoc]
      · have hstep : master_step i m (s, a) =
            ⟨m.name ++ (a ++ "max"), aset m.location a info.max⟩ := by
          unfold master_step
          rw [hinfo]
          simp only [Option.getD_some, if_neg hbit, String.append_assoc]
        rw [hstep] at hnotmem ⊢
        have hlook : (List.foldl (master_step i)
            (⟨m.name ++ (a ++ "max"), aset m.location a info.max⟩ : Master)
            (List.enumFrom (s + 1) t)).location.lookup a = some info.max := by
          rw [hnotmem]
          exact aset_lookup_self _ _ _
        conv_rhs => rw [masterNameOf]
        simp only [hlook, hinfo, Option.getD_some,
          if_neg (fun hc => hmm (Option.some.inj hc).symm),
          String.append_assoc]

/-- C7: for `N ≥ 1` distinct active axes drawn from the registry,
`get_masters` generates exactly `2^N` masters; every master assigns every
active axis either its registry minimum or its registry maximum; no two
masters share the same location assignment; and each master's name is the
concatenation, in axis-list order, of the axis tag followed by `"min"` or
`"max"` according to that master's assignment. -/
theorem masters_enumeration (va : List String)
    (hn : 1 ≤ va.length) (hnd : va.Nodup)
    (hval : ∀ a ∈ va, (axes_info.lookup a).isSome) :
    (get_masters va).length = 2 ^ va.length ∧
    (∀ m ∈ get_masters va, ∀ a ∈ va,
      m.location.lookup a = some ((axes_info.lookup a).getD ⟨"", 0, 0, 0⟩).min ∨
      m.location.lookup a = some ((axes_info.lookup a).getD ⟨"", 0, 0, 0⟩).max) ∧
    ((get_masters va).map (fun m => m.location)).Nodup ∧
    (∀ m ∈ get_masters va, m.name = masterNameOf m.location va) := by
  have hgm : get_masters va = (List.range (2 ^ va.length)).map
      (fun mi => (List.enumFrom 0 va).foldl (master_step mi) ⟨"", []⟩) := by
    rw [get_masters, if_pos hn]
    rfl
  have hmem : ∀ m ∈ get_masters va, ∃ i, i < 2 ^ va.length ∧
      m = (List.enumFrom 0 va).foldl (master_step i) ⟨"", []⟩ := by
    intro m hm
    rw [hgm] at hm
    obtain ⟨i, hi, rfl⟩ := List.mem_map.mp hm
    exact ⟨i, List.mem_range.mp hi, rfl⟩
  refine ⟨by rw [hgm]; simp, ?_, ?_, ?_⟩
  · intro m hm a ha
    obtain ⟨i, hilt, rfl⟩ := hmem m hm
    obtain ⟨⟨k, hk⟩, rfl⟩ := List.mem_iff_get.mp ha
    have hloc := master_fold_loc i va 0 ⟨"", []⟩ hnd k hk
    rw [Nat.zero_add] at hloc
    rw [hloc]
    unfold axis_corner_value
    by_cases hbit : i &&& (1 <<< k) = 0
    · rw [if_pos hbit]
      left
      rfl
    · rw [if_neg hbit]
      right
      rfl
  · rw [hgm, List.map_map]
    refine List.Nodup.map_on ?_ (List.nodup_range _)
    intro i hi j hj heq
    rw [List.mem_range] at hi hj
    apply Nat.eq_of_testBit_eq
    intro b
    by_cases hb : b < va.length
    · have h1 := master_fold_loc i va 0 ⟨"", []⟩ hnd b hb
      have h2 := master_fold_loc j va 0 ⟨"", []⟩ hnd b hb
      rw [Nat.zero_add] at h1 h2
      have heq' : ((List.enumFrom 0 va).foldl (master_step i)
          ⟨"", []⟩).location = ((List.enumFrom 0 va).foldl (master_step j)
          ⟨"", []⟩).location := heq
      rw [heq', h2, Option.some.injEq] at h1
      obtain ⟨info, hinfo⟩ := Option.isSome_iff_exists.mp
        (hval _ (List.get_mem va b hb))
      have hmm := axes_info_min_ne_max _ (lookup_mem hinfo)
      unfold axis_corner_value at h1
      rw [hinfo] at h1
      simp only [Option.getD_some, and_shift_eq_zero] at h1
      by_cases tbi : i.testBit b <;> by_cases tbj : j.testBit b
      · rw [tbi, tbj]
      · rw [if_pos (Bool.not_eq_true _ |>.mp tbj), if_neg (by simp [tbi])] at h1
        exact absurd h1 hmm
      · rw [if_neg (by simp [tbj]), if_pos (Bool.not_eq_true _ |>.mp tbi)] at h1
        exact absurd h1.symm hmm
      · rw [Bool.not_eq_true _ |>.mp tbi, Bool.not_eq_true _ |>.mp tbj]
    · have h2b : 2 ^ va.length ≤ 2 ^ b :=
        Nat.pow_le_pow_right (by omega) (Nat.le_of_not_lt hb)
      rw [Nat.testBit_lt_two_pow (Nat.lt_of_lt_of_le hi h2b),
        Nat.testBit_lt_two_pow (Nat.lt_of_lt_of_le hj h2b)]
  · intro m hm
    obtain ⟨i, hilt, rfl⟩ := hmem m hm
    exact master_fold_name i va 0 ⟨"", []⟩ hnd hval

/-- Witness for C7 at the concrete two-axis set `ESIZ, ROND`: four masters are
generated. -/
theorem masters_enumeration_witness :
    (get_masters ["ESIZ", "ROND"]).length =
      2 ^ (["ESIZ", "ROND"] : List String).length :=
  (masters_enumeration ["ESIZ", "ROND"] (by decide) (by decide) (by decide)).1

/-- The codepoints of the combining table are pairwise distinct. -/
theorem combining_keys_nodup : (combining_infos.map (fun e => e.1)).Nodup := by
  decide

/-- No codepoint of the combining table is the spacing-modifier equivalent of
any entry of the table. -/
theorem combining_modifier_not_key :
    ∀ e ∈ combining_infos, ∀ e' ∈ combining_infos, ∀ mc : Int,
      e'.2.modifier = some mc → e.1 ≠ mc := by decide

/-- Synthesized `uniXXXX` names of distinct combining codepoints are
distinct. -/
theorem combining_uniName_inj :
    ∀ e ∈ combining_infos, ∀ e' ∈ combining_infos,
      e.1 ≠ e'.1 → uniName e.1 ≠ uniName e'.1 := by decide

/-- One load-pass step on an unrelated table entry keeps an already-registered
synthesized glyph intact. -/
theorem add_combining_step_preserves (subset : Int → Bool) (f : BdfFont)
    (e : Int × CombiningInfo) (cp : Int) (g : Glyph)
    (hkey : e.1 ≠ cp) (hname : uniName e.1 ≠ uniName cp)
    (hc : f.codepoints.lookup cp = some (uniName cp))
    (hg : f.glyphs.lookup (uniName cp) = some g) :
    (add_combining_step subset f e).codepoints.lookup cp = some (uniName cp) ∧
    (add_combining_step subset f e).glyphs.lookup (uniName cp) = some g := by
  unfold add_combining_step
  split
  · exact ⟨hc, hg⟩
  · split
    · split
      · split
        · refine ⟨?_, ?_⟩
          · rw [aset_lookup_ne (Ne.symm hkey)]
            exact hc
          · rw [aset_lookup_ne (Ne.symm hname)]
            exact hg
        · exact ⟨hc, hg⟩
      · exact ⟨hc, hg⟩
    · exact ⟨hc, hg⟩

/-- One load-pass step on an unrelated table entry keeps the modifier glyph
resolvable and the combining codepoint unregistered. -/
theorem add_combining_step_pre (subset : Int → Bool) (f : BdfFont)
    (e : Int × CombiningInfo) (cp mc : Int) (mname : String) (mg : Glyph)
    (hkey : e.1 ≠ cp) (hkeymc : e.1 ≠ mc) (hname : uniName e.1 ≠ mname)
    (hmc : f.codepoints.lookup mc = some mname)
    (hmg : f.glyphs.lookup mname = some mg)
    (hcp : f.codepoints.lookup cp = none) :
    (add_combining_step subset f e).codepoints.lookup mc = some mname ∧
    (add_combining_step subset f e).glyphs.lookup mname = some mg ∧
    (add_combining_step subset f e).codepoints.lookup cp = none := by
  unfold add_combining_step
  split
  · exact ⟨hmc, hmg, hcp⟩
  · split
    · split
      · split
        · refine ⟨?_, ?_, ?_⟩
          · rw [aset_lookup_ne (Ne.symm hkeymc)]
            exact hmc
          · rw [aset_lookup_ne (Ne.symm hname)]
            exact hmg
          · rw [aset_lookup_ne (Ne.symm hkey)]
            exact hcp
        · exact ⟨hmc, hmg, hcp⟩
      · exact ⟨hmc, hmg, hcp⟩
    · exact ⟨hmc, hmg, hcp⟩

/-- The load-pass step on the entry of a combining codepoint that is missing
from the repository while its spacing modifier is present registers the
synthesized glyph carrying the modifier's bitmap, offset and advance. -/
theorem add_combining_step_establishes (subset : Int → Bool) (f : BdfFont)
    (cp : Int) (info : CombiningInfo) (mc : Int) (mname : String) (mg : Glyph)
    (hmod : info.modifier = some mc)
    (hmc : f.codepoints.lookup mc = some mname)
    (hmg : f.glyphs.lookup mname = some mg)
    (hcp : f.codepoints.lookup cp = none)
    (hsub : subset cp = true) :
    (add_combining_step subset f (cp, info)).codepoints.lookup cp =
      some (uniName cp) ∧
    (add_combining_step subset f (cp, info)).glyphs.lookup (uniName cp) =
      some ⟨cp, mg.bitmap, mg.offset, mg.advance⟩ := by
  unfold add_combining_step
  simp only [hmod, hmc, hmg, hcp, hsub, Option.isSome_some, Option.isSome_none,
    Bool.not_false, Bool.and_self, Bool.and_true, Bool.true_and, if_true]
  exact ⟨aset_lookup_self _ _ _, aset_lookup_self _ _ _⟩

/-- An established synthesized glyph survives the rest of the load pass when
no remaining entry shares its codepoint or its synthesized name. -/
theorem add_combining_fold_preserves (subset : Int → Bool) (cp : Int)
    (g : Glyph) (l : List (Int × CombiningInfo)) :
    ∀ (f : BdfFont),
    (∀ e ∈ l, e.1 ≠ cp ∧ uniName e.1 ≠ uniName cp) →
    f.codepoints.lookup cp = some (uniName cp) →
    f.glyphs.lookup (uniName cp) = some g →
    (l.foldl (add_combining_step subset) f).codepoints.lookup cp =
      some (uniName cp) ∧
    (l.foldl (add_combining_step subset) f).glyphs.lookup (uniName cp) =
      some g := by
  induction l with
  | nil => intro f _ hc hg; exact ⟨hc, hg⟩
  | cons e t ih =>
      intro f hl hc hg
      rw [List.foldl_cons]
      obtain ⟨hkey, hname⟩ := hl e (List.mem_cons_self _ _)
      obtain ⟨hc', hg'⟩ := add_combining_step_preserves subset f e cp g hkey
        hname hc hg
      exact ih _ (fun e' he' => hl e' (List.mem_cons_of_mem _ he')) hc' hg'

/-- Core induction for the load pass: folding the step over a table list
containing the combining entry, with distinct keys, no key equal to the
modifier codepoint, and no synthesized name colliding with the modifier
glyph's name, registers the synthesized glyph. -/
theorem add_combining_fold_main (subset : Int → Bool) (cp : Int)
    (info : CombiningInfo) (mc : Int) (mname : String) (mg : Glyph)
    (l : List (Int × CombiningInfo)) :
    ∀ (f : BdfFont),
    (cp, info) ∈ l →
    info.modifier = some mc →
    subset cp = true →
    (l.map (fun e => e.1)).Nodup →
    (∀ e ∈ l, e.1 ≠ mc) →
    (∀ e ∈ l, uniName e.1 ≠ mname) →
    (∀ e ∈ l, e.1 ≠ cp → uniName e.1 ≠ uniName cp) →
    f.codepoints.lookup mc = some mname →
    f.glyphs.lookup mname = some mg →
    f.codepoints.lookup cp = none →
    (l.foldl (add_combining_step subset) f).codepoints.lookup cp =
      some (uniName cp) ∧
    (l.foldl (add_combining_step subset) f).glyphs.lookup (uniName cp) =
      some ⟨cp, mg.bitmap, mg.offset, mg.advance⟩ := by
  induction l with
  | nil => intro f hmem; cases hmem
  | cons e t ih =>
      intro f hmem hmod hsub hnd hnomc honame hinj hmc hmg hcp
      have hndt : (t.map (fun e => e.1)).Nodup := (List.nodup_cons.mp hnd).2
      have hhead : e.1 ∉ t.map (fun e => e.1) := (List.nodup_cons.mp hnd).1
      rw [List.foldl_cons]
      rcases List.mem_cons.mp hmem with heq | hmemt
      · subst heq
        obtain ⟨hc1, hg1⟩ := add_combining_step_establishes subset f cp info mc
          mname mg hmod hmc hmg hcp hsub
        refine add_combining_fold_preserves subset cp _ t _ ?_ hc1 hg1
        intro e' he'
        have hne : e'.1 ≠ cp := by
          intro hc
          exact hhead (hc ▸ List.mem_map_of_mem (fun e => e.1) he')
        exact ⟨hne, hinj e' (List.mem_cons_of_mem _ he') hne⟩
      · have hkeycp : e.1 ≠ cp := by
          intro hc
          exact hhead (hc ▸ List.mem_map_of_mem (fun e => e.1) hmemt)
        obtain ⟨hmc', hmg', hcp'⟩ := add_combining_step_pre subset f e cp mc
          mname mg hkeycp (hnomc e (List.mem_cons_self _ _))
          (honame e (List.mem_cons_self _ _)) hmc hmg hcp
        exact ih _ hmemt hmod hsub hndt
          (fun e' he' => hnomc e' (List.mem_cons_of_mem _ he'))
          (fun e' he' => honame e' (List.mem_cons_of_mem _ he'))
          (fun e' he' => hinj e' (List.mem_cons_of_mem _ he'))
          hmc' hmg' hcp'

/-- C9: after the bitmap font is loaded, for every codepoint of the
combining-mark table whose spacing-modifier codepoint has a glyph, whose own
codepoint has none, and which passes the codepoint-subset filter (and whose
modifier glyph is not itself named like a synthesized `uniXXXX` glyph), the
repository's codepoint index maps the combining codepoint to the synthesized
`uniXXXX` glyph whose bitmap, offset and advance are those of the
spacing-modifier glyph. -/
theorem load_synthesizes_missing_combining_glyphs (subset : Int → Bool)
    (font : BdfFont) (cp : Int) (info : CombiningInfo) (mc : Int)
    (mname : String) (mg : Glyph)
    (htab : (cp, info) ∈ combining_infos)
    (hmod : info.modifier = some mc)
    (hsub : subset cp = true)
    (hmc : font.codepoints.lookup mc = some mname)
    (hmg : font.glyphs.lookup mname = some mg)
    (hcp : font.codepoints.lookup cp = none)
    (hfresh : ∀ e ∈ combining_infos, uniName e.1 ≠ mname) :
    (add_undefined_combining_glyphs subset font).codepoints.lookup cp =
      some (uniName cp) ∧
    (add_undefined_combining_glyphs subset font).glyphs.lookup (uniName cp) =
      some ⟨cp, mg.bitmap, mg.offset, mg.advance⟩ := by
  refine add_combining_fold_main subset cp info mc mname mg combining_infos
    font htab hmod hsub combining_keys_nodup ?_ hfresh ?_ hmc hmg hcp
  · intro e he
    exact combining_modifier_not_key e he (cp, info) htab mc hmod
  · intro e he hne
    exact combining_uniName_inj e he (cp, info) htab hne

/-- Witness for C9: loading `modFont`, which holds only the spacing grave
modifier U+02CB under the name `gravemod`, registers the combining grave
U+0300 as `uni0300` with the modifier's bitmap, offset and advance. -/
theorem load_synthesizes_missing_combining_glyphs_witness :
    (add_undefined_combining_glyphs (fun _ => true)
      modFont).codepoints.lookup 0x300 = some (uniName 0x300) ∧
    (add_undefined_combining_glyphs (fun _ => true)
      modFont).glyphs.lookup (uniName 0x300) =
      some ⟨0x300, modGlyph.bitmap, modGlyph.offset, modGlyph.advance⟩ :=
  load_synthesizes_missing_combining_glyphs (fun _ => true) modFont 0x300
    ⟨"grave accent", "top", some 0x2cb⟩ 0x2cb "gravemod" modGlyph
    (by decide) rfl rfl rfl rfl rfl (by decide)

/-- Setting a pixel preserves the number of rows. -/
theorem bmSet_length (b : Bitmap) (y x : Nat) :
    (bmSet b y x).length = b.length :=
  List.length_set b y _

/-- Setting a pixel preserves every row length. -/
theorem bmSet_rowlen (b : Bitmap) (y x yy : Nat) :
    ((bmSet b y x).getD yy []).length = (b.getD yy []).length := by
  unfold bmSet
  by_cases h : y = yy
  · subst h
    by_cases hy : y < b.length
    · simp [List.getD_eq_getElem?_getD, List.getElem?_set_self hy]
    · rw [List.set_eq_of_length_le (Nat.le_of_not_lt hy)]
  · simp [List.getD_eq_getElem?_getD, List.getElem?_set_ne h]

/-- Reading back an in-range pixel just set yields ink. -/
theorem bmGet_bmSet_same (b : Bitmap) (y x : Nat)
    (hy : y < b.length) (hx : x < (b.getD y []).length) :
    bmGet (bmSet b y x) y x = true := by
  rw [List.getD_eq_getElem?_getD] at hx
  unfold bmGet bmSet
  simp [List.getD_eq_getElem?_getD, List.getElem?_set_self hy,
    List.getElem?_set_self hx]

/-- Reading any other pixel after a set yields the original value. -/
theorem bmGet_bmSet_other (b : Bitmap) (y x yy xx : Nat)
    (h : ¬(yy = y ∧ xx = x)) :
    bmGet (bmSet b y x) yy xx = bmGet b yy xx := by
  unfold bmGet bmSet
  simp only [List.getD_eq_getElem?_getD]
  by_cases hy : y = yy
  · subst hy
    have hx : xx ≠ x := fun hc => h ⟨rfl, hc⟩
    by_cases hylen : y < b.length
    · rw [List.getElem?_set_self hylen]
      simp only [Option.getD_some]
      rw [List.getElem?_set_ne (fun hc => hx hc.symm)]
    · rw [List.getElem?_set]
      simp only [if_pos rfl, if_neg hylen]
      rw [List.getElem?_eq_none_iff.mpr (Nat.le_of_not_lt hylen)]
      simp
  · rw [List.getElem?_set_ne hy]

/-- The all-zeros bitmap has no ink anywhere. -/
theorem bmGet_zeros (h w y x : Nat) : bmGet (bmZeros h w) y x = false := by
  unfold bmGet bmZeros
  simp only [List.getD_eq_getElem?_getD, List.getElem?_replicate]
  by_cases hy : y < h
  · simp only [if_pos hy, Option.getD_some, List.getElem?_replicate]
    by_cases hx : x < w <;> simp [hx]
  · simp [hy]

/-- Every pixel coordinate of `pixList h w` is within the grid. -/
theorem pixList_mem {h w : Nat} {p : Nat × Nat} (hp : p ∈ pixList h w) :
    p.1 < h ∧ p.2 < w := by
  unfold pixList at hp
  rw [List.mem_flatMap] at hp
  obtain ⟨y, hy, hp⟩ := hp
  rw [List.mem_map] at hp
  obtain ⟨x, hx, rfl⟩ := hp
  exact ⟨List.mem_range.mp hy, List.mem_range.mp hx⟩

/-- Every offset tried by the search keeps the constituent's bounding box
inside the composite's. -/
theorem offsetList_mem {composed comp : Bitmap} {off : Nat × Nat}
    (hoff : off ∈ offsetList composed comp) :
    off.1 + bmRows comp ≤ bmRows composed ∧
    off.2 + bmCols comp ≤ bmCols composed := by
  unfold offsetList at hoff
  rw [List.mem_flatMap] at hoff
  obtain ⟨dy, hdy, hoff⟩ := hoff
  rw [List.mem_map] at hoff
  obtain ⟨dx, hdx, rfl⟩ := hoff
  have h1 := List.mem_range.mp hdy
  have h2 := List.mem_range.mp hdx
  exact ⟨by omega, by omega⟩

/-- The pixel-painting fold preserves the working bitmap's shape. -/
theorem paint_pixel_fold_shape (comp : Bitmap) (off : Nat × Nat)
    (pl : List (Nat × Nat)) : ∀ w : Bitmap,
    (pl.foldl (paint_pixel comp off) w).length = w.length ∧
    (∀ yy, ((pl.foldl (paint_pixel comp off) w).getD yy []).length =
      (w.getD yy []).length) := by
  induction pl with
  | nil => intro w; exact ⟨rfl, fun _ => rfl⟩
  | cons p t ih =>
      intro w
      rw [List.foldl_cons]
      obtain ⟨h1, h2⟩ := ih (paint_pixel comp off w p)
      refine ⟨?_, fun yy => ?_⟩
      · rw [h1]
        unfold paint_pixel
        split
        · exact bmSet_length _ _ _
        · rfl
      · rw [h2]
        unfold paint_pixel
        split
        · exact bmSet_rowlen _ _ _ _
        · rfl

/-- Pointwise description of the pixel-painting fold: a pixel is ink in the
result exactly when it was ink already or some listed component ink pixel
shifts onto it. -/
theorem paint_pixel_fold_get (comp : Bitmap) (off : Nat × Nat)
    (pl : List (Nat × Nat)) : ∀ (w : Bitmap) (y x : Nat),
    (∀ p ∈ pl, bmGet comp p.1 p.2 = true →
      off.1 + p.1 < w.length ∧ off.2 + p.2 < (w.getD (off.1 + p.1) []).length) →
    bmGet (pl.foldl (paint_pixel comp off) w) y x =
      (bmGet w y x || pl.any (fun p =>
        bmGet comp p.1 p.2 && (off.1 + p.1 == y) && (off.2 + p.2 == x))) := by
  induction pl with
  | nil => intro w y x _; simp
  | cons p t ih =>
      intro w y x hb
      rw [List.foldl_cons, List.any_cons]
      have hstep : bmGet (paint_pixel comp off w p) y x =
          (bmGet w y x ||
            (bmGet comp p.1 p.2 && (off.1 + p.1 == y) && (off.2 + p.2 == x))) := by
        unfold paint_pixel
        cases hink : bmGet comp p.1 p.2 with
        | false => simp
        | true =>
            rw [if_pos rfl]
            by_cases hyx : y = off.1 + p.1 ∧ x = off.2 + p.2
            · obtain ⟨rfl, rfl⟩ := hyx
              obtain ⟨hr1, hr2⟩ := hb p (List.mem_cons_self _ _) hink
              rw [bmGet_bmSet_same _ _ _ hr1 hr2]
              simp
            · rw [bmGet_bmSet_other w (off.1 + p.1) (off.2 + p.2) y x hyx]
              rcases Decidable.not_and_iff_or_not.mp hyx with hc | hc
              · have : (off.1 + p.1 == y) = false :=
                  beq_false_of_ne (fun he => hc he.symm)
                simp [this]
              · have : (off.2 + p.2 == x) = false :=
                  beq_false_of_ne (fun he => hc he.symm)
                simp [this]
      have hbt : ∀ q ∈ t, bmGet comp q.1 q.2 = true →
          off.1 + q.1 < (paint_pixel comp off w p).length ∧
          off.2 + q.2 < ((paint_pixel comp off w p).getD (off.1 + q.1) []).length := by
        intro q hq hqi
        obtain ⟨hr1, hr2⟩ := hb q (List.mem_cons_of_mem _ hq) hqi
        constructor
        · unfold paint_pixel
          split
          · rw [bmSet_length]
            exact hr1
          · exact hr1
        · unfold paint_pixel
          split
          · rw [bmSet_rowlen]
            exact hr2
          · exact hr2
      rw [ih (paint_pixel comp off w p) y x hbt, hstep, Bool.or_assoc]

/-- Pointwise description of `paintApply` when the shifted component fits
inside the working bitmap. -/
theorem paintApply_get (comp : Bitmap) (off : Nat × Nat) (w : Bitmap) (y x : Nat)
    (hfit1 : off.1 + bmRows comp ≤ w.length)
    (hfit2 : ∀ yy, yy < w.length → off.2 + bmCols comp ≤ (w.getD yy []).length) :
    bmGet (paintApply comp off w) y x =
      (bmGet w y x || (pixList (bmRows comp) (bmCols comp)).any (fun p =>
        bmGet comp p.1 p.2 && (off.1 + p.1 == y) && (off.2 + p.2 == x))) := by
  apply paint_pixel_fold_get
  intro p hp _
  obtain ⟨hp1, hp2⟩ := pixList_mem hp
  have hr1 : off.1 + p.1 < w.length := by omega
  exact ⟨hr1, by have := hfit2 _ hr1; omega⟩

/-- `paint_bdf_glyph` succeeds exactly with the painted working bitmap. -/
theorem paint_some {composed comp : Bitmap} {off : Nat × Nat} {work w : Bitmap}
    (h : paint_bdf_glyph composed comp off work = some w) :
    w = paintApply comp off work := by
  unfold paint_bdf_glyph at h
  split at h
  · exact (Option.some.inj h).symm
  · cases h

/-- The recovered search offset of the placement built at source line 944. -/
theorem relative_offset_add (co : Int × Int) (name : String) (off : Nat × Nat) :
    relative_offset co ⟨name, add_offset co (Int.ofNat off.1, Int.ofNat off.2)⟩ =
      off := by
  unfold relative_offset add_offset
  simp [add_sub_cancel_left]

/-- `paintApply` preserves the working bitmap's shape. -/
theorem paintApply_shape (comp : Bitmap) (off : Nat × Nat) (w : Bitmap) :
    (paintApply comp off w).length = w.length ∧
    (∀ yy, ((paintApply comp off w).getD yy []).length =
      (w.getD yy []).length) :=
  paint_pixel_fold_shape comp off (pixList (bmRows comp) (bmCols comp)) w

/-- Painting a freshly built placement paints its glyph at its search
offset. -/
theorem paint_component_mk (font : BdfFont) (co : Int × Int) (name : String)
    (g : Glyph) (off : Nat × Nat) (wrk : Bitmap)
    (hg : (font.glyphs.lookup name).getD junkGlyph = g) :
    paint_component font co
      ⟨name, add_offset co (Int.ofNat off.1, Int.ofNat off.2)⟩ wrk =
      paintApply g.bitmap off wrk := by
  simp only [paint_component, hg, relative_offset_add]

/-- Ink coverage of a freshly built placement. -/
theorem component_ink_mk (font : BdfFont) (co : Int × Int) (name : String)
    (g : Glyph) (off : Nat × Nat) (y x : Nat)
    (hg : (font.glyphs.lookup name).getD junkGlyph = g) :
    component_ink font co
      ⟨name, add_offset co (Int.ofNat off.1, Int.ofNat off.2)⟩ y x =
      (pixList (bmRows g.bitmap) (bmCols g.bitmap)).any (fun p =>
        bmGet g.bitmap p.1 p.2 && (off.1 + p.1 == y) && (off.2 + p.2 == x)) := by
  simp only [component_ink, hg, relative_offset_add]

/-- Fit of a freshly built placement. -/
theorem componentFits_mk (font : BdfFont) (cb : Bitmap) (co : Int × Int)
    (name : String) (g : Glyph) (off : Nat × Nat)
    (hg : (font.glyphs.lookup name).getD junkGlyph = g)
    (h1 : off.1 + bmRows g.bitmap ≤ bmRows cb)
    (h2 : off.2 + bmCols g.bitmap ≤ bmCols cb) :
    componentFits font cb co
      ⟨name, add_offset co (Int.ofNat off.1, Int.ofNat off.2)⟩ := by
  unfold componentFits
  rw [hg, relative_offset_add]
  exact ⟨h1, h2⟩

/-- Offset-loop invariant: when the loop returns success, the placements
painted onto the incoming working bitmap reconstruct the composite exactly,
every placement fits the composite grid, and pixel-wise the composite's ink is
the working bitmap's ink joined with the placements' shifted ink. `hrec` is
the same invariant for the search on the remaining constituents. -/
theorem tryOffsets_success_invariant (font : BdfFont) (composed : Glyph)
    (recur : Bitmap → SearchResult) (name : String) (g : Glyph)
    (hg : (font.glyphs.lookup name).getD junkGlyph = g)
    (hrec : ∀ (w : Bitmap) (comps : List BdfComponent),
      w.length = bmRows composed.bitmap →
      (∀ yy, yy < w.length → (w.getD yy []).length = bmCols composed.bitmap) →
      recur w = .success comps →
      render_components_onto font composed.offset w comps = composed.bitmap ∧
      (∀ c ∈ comps, componentFits font composed.bitmap composed.offset c) ∧
      (∀ y x, bmGet composed.bitmap y x =
        (bmGet w y x ||
          comps.any (fun c => component_ink font composed.offset c y x)))) :
    ∀ (offs : List (Nat × Nat)) (work : Bitmap) (comps : List BdfComponent),
    (∀ off ∈ offs, off.1 + bmRows g.bitmap ≤ bmRows composed.bitmap ∧
      off.2 + bmCols g.bitmap ≤ bmCols composed.bitmap) →
    work.length = bmRows composed.bitmap →
    (∀ yy, yy < work.length → (work.getD yy []).length = bmCols composed.bitmap) →
    tryOffsets recur composed name g work offs = some (.success comps) →
    render_components_onto font composed.offset work comps = composed.bitmap ∧
    (∀ c ∈ comps, componentFits font composed.bitmap composed.offset c) ∧
    (∀ y x, bmGet composed.bitmap y x =
      (bmGet work y x ||
        comps.any (fun c => component_ink font composed.offset c y x))) := by
  intro offs
  induction offs with
  | nil => intro work comps _ _ _ h; simp [tryOffsets] at h
  | cons off offs ih =>
      intro work comps hoffs hw1 hw2 h
      unfold tryOffsets at h
      cases hp : paint_bdf_glyph composed.bitmap g.bitmap off work with
      | none =>
          simp only [hp] at h
          exact ih work comps (fun o ho => hoffs o (List.mem_cons_of_mem _ ho))
            hw1 hw2 h
      | some w =>
          simp only [hp] at h
          have hweq := paint_some hp
          subst hweq
          cases hr : recur (paintApply g.bitmap off work) with
          | missing => simp only [hr] at h; simp at h
          | uncomposable => simp only [hr] at h; simp at h
          | mismatch =>
              simp only [hr] at h
              exact ih work comps
                (fun o ho => hoffs o (List.mem_cons_of_mem _ ho)) hw1 hw2 h
          | success comps1 =>
              simp only [hr, Option.some.injEq, SearchResult.success.injEq] at h
              subst h
              obtain ⟨hs1, hs2⟩ := paintApply_shape g.bitmap off work
              have hoff0 := hoffs off (List.mem_cons_self _ _)
              obtain ⟨R1, R2, R3⟩ := hrec (paintApply g.bitmap off work) comps1
                (by rw [hs1]; exact hw1)
                (by
                  intro yy hyy
                  rw [hs2 yy]
                  exact hw2 yy (by rw [← hs1]; exact hyy))
                hr
              refine ⟨?_, ?_, ?_⟩
              · unfold render_components_onto
                rw [List.foldr_append]
                have hsing : List.foldr (paint_component font composed.offset)
                    work [⟨name, add_offset composed.offset
                      (Int.ofNat off.1, Int.ofNat off.2)⟩] =
                    paintApply g.bitmap off work := by
                  rw [List.foldr_cons, List.foldr_nil]
                  exact paint_component_mk font composed.offset name g off work hg
                rw [hsing]
                exact R1
              · intro c hc
                rcases List.mem_append.mp hc with hc1 | hc2
                · exact R2 c hc1
                · rw [List.mem_singleton] at hc2
                  subst hc2
                  exact componentFits_mk font composed.bitmap composed.offset
                    name g off hg hoff0.1 hoff0.2
              · intro y x
                rw [R3 y x,
                  paintApply_get g.bitmap off work y x
                    (by rw [hw1]; exact hoff0.1)
                    (fun yy hyy => by rw [hw2 yy hyy]; exact hoff0.2),
                  List.any_append, List.any_cons, List.any_nil,
                  component_ink_mk font composed.offset name g off y x hg]
                simp only [Bool.or_false, Bool.or_assoc]
                rw [Bool.or_comm
                  ((pixList (bmRows g.bitmap) (bmCols g.bitmap)).any (fun p =>
                    bmGet g.bitmap p.1 p.2 && (off.1 + p.1 == y) &&
                      (off.2 + p.2 == x)))
                  (comps1.any (fun c => component_ink font composed.offset c y x))]

/-- Stage-2 invariant: a successful spacing-modifier substitution satisfies
the same reconstruction invariant. -/
theorem search_stage2_success_invariant (font : BdfFont) (composed : Glyph)
    (recur : Bitmap → SearchResult) (cc : Int) (work : Bitmap)
    (comps : List BdfComponent)
    (hrec : ∀ (w : Bitmap) (comps' : List BdfComponent),
      w.length = bmRows composed.bitmap →
      (∀ yy, yy < w.length → (w.getD yy []).length = bmCols composed.bitmap) →
      recur w = .success comps' →
      render_components_onto font composed.offset w comps' = composed.bitmap ∧
      (∀ c ∈ comps', componentFits font composed.bitmap composed.offset c) ∧
      (∀ y x, bmGet composed.bitmap y x =
        (bmGet w y x ||
          comps'.any (fun c => component_ink font composed.offset c y x))))
    (hw1 : work.length = bmRows composed.bitmap)
    (hw2 : ∀ yy, yy < work.length →
      (work.getD yy []).length = bmCols composed.bitmap)
    (h : search_stage2 font composed recur cc work = .success comps) :
    render_components_onto font composed.offset work comps = composed.bitmap ∧
    (∀ c ∈ comps, componentFits font composed.bitmap composed.offset c) ∧
    (∀ y x, bmGet composed.bitmap y x =
      (bmGet work y x ||
        comps.any (fun c => component_ink font composed.offset c y x))) := by
  unfold search_stage2 at h
  cases hci : combining_infos.lookup cc with
  | none =>
      simp only [hci] at h
      by_cases hs : (font.codepoints.lookup cc).isSome <;> simp [hs] at h
  | some info =>
      simp only [hci] at h
      cases hmod : info.modifier with
      | none => simp only [hmod] at h; simp at h
      | some mc =>
          simp only [hmod] at h
          by_cases hself : mc = composed.codepoint
          · simp [hself] at h
          · rw [if_neg hself] at h
            cases hmc : font.codepoints.lookup mc with
            | none => simp only [hmc] at h; simp at h
            | some name =>
                simp only [hmc] at h
                cases hto : tryOffsets recur composed name
                    ((font.glyphs.lookup name).getD junkGlyph) work
                    (offsetList composed.bitmap
                      ((font.glyphs.lookup name).getD junkGlyph).bitmap) with
                | none =>
                    simp only [hto] at h
                    by_cases hs : (font.codepoints.lookup mc).isSome <;>
                      simp [hs] at h
                | some r =>
                    simp only [hto] at h
                    subst h
                    exact tryOffsets_success_invariant font composed recur name
                      _ rfl hrec _ work comps
                      (fun o ho => offsetList_mem ho) hw1 hw2 hto

/-- Search invariant: every successful search paints its placements onto the
incoming working bitmap to give exactly the composite bitmap, keeps every
placement inside the composite grid, and covers pixel-wise exactly the
composite ink beyond the working bitmap's. -/
theorem search_success_invariant (font : BdfFont) (composed : Glyph) :
    ∀ (dec : List Int) (work : Bitmap) (comps : List BdfComponent),
    work.length = bmRows composed.bitmap →
    (∀ yy, yy < work.length → (work.getD yy []).length = bmCols composed.bitmap) →
    get_bdf_components font composed dec work = .success comps →
    render_components_onto font composed.offset work comps = composed.bitmap ∧
    (∀ c ∈ comps, componentFits font composed.bitmap composed.offset c) ∧
    (∀ y x, bmGet composed.bitmap y x =
      (bmGet work y x ||
        comps.any (fun c => component_ink font composed.offset c y x))) := by
  intro dec
  induction dec with
  | nil =>
      intro work comps _ _ h
      unfold get_bdf_components at h
      split at h
      · next heq =>
          simp only [SearchResult.success.injEq] at h
          subst h
          refine ⟨heq.symm, by simp, fun y x => ?_⟩
          rw [heq]
          simp
      · cases h
  | cons cc rest ih =>
      intro work comps hw1 hw2 h
      unfold get_bdf_components at h
      cases hcc : font.codepoints.lookup cc with
      | none =>
          simp only [hcc] at h
          exact search_stage2_success_invariant font composed _ cc work comps
            (fun w c hw1' hw2' hr => ih w c hw1' hw2' hr) hw1 hw2 h
      | some name =>
          simp only [hcc] at h
          cases hto : tryOffsets (fun w => get_bdf_components font composed rest w)
              composed name ((font.glyphs.lookup name).getD junkGlyph) work
              (offsetList composed.bitmap
                ((font.glyphs.lookup name).getD junkGlyph).bitmap) with
          | some r =>
              simp only [hto] at h
              subst h
              exact tryOffsets_success_invariant font composed _ name _ rfl
                (fun w c hw1' hw2' hr => ih w c hw1' hw2' hr) _ work comps
                (fun o ho => offsetList_mem ho) hw1 hw2 hto
          | none =>
              simp only [hto] at h
              exact search_stage2_success_invariant font composed _ cc work comps
                (fun w c hw1' hw2' hr => ih w c hw1' hw2' hr) hw1 hw2 h

/-- C1: for every composite glyph and every non-empty constituent list on
which the search succeeds, the pixel-wise union of the returned placements'
constituent bitmaps, each shifted to its returned offset, equals the composite
bitmap exactly: painting all placements onto the blank composite-sized canvas
yields the composite bitmap, and pixel-by-pixel the composite's ink is
precisely the union of the placements' shifted ink (no pixel under- or
over-covered). -/
theorem search_success_reconstructs_composite (font : BdfFont)
    (composed : Glyph) (dec : List Int) (comps : List BdfComponent)
    (hne : dec ≠ [])
    (h : get_bdf_components font composed dec
      (bmZeros (bmRows composed.bitmap) (bmCols composed.bitmap)) =
        .success comps) :
    render_components font composed comps = composed.bitmap ∧
    (∀ y x, bmGet composed.bitmap y x =
      comps.any (fun c => component_ink font composed.offset c y x)) := by
  have hz1 : (bmZeros (bmRows composed.bitmap)
      (bmCols composed.bitmap)).length = bmRows composed.bitmap :=
    List.length_replicate _ _
  have hz2 : ∀ yy, yy < (bmZeros (bmRows composed.bitmap)
      (bmCols composed.bitmap)).length →
      ((bmZeros (bmRows composed.bitmap)
        (bmCols composed.bitmap)).getD yy []).length =
        bmCols composed.bitmap := by
    intro yy hyy
    rw [hz1] at hyy
    unfold bmZeros
    rw [List.getD_eq_getElem?_getD, List.getElem?_replicate, if_pos hyy,
      Option.getD_some, List.length_replicate]
  obtain ⟨R1, _, R3⟩ := search_success_invariant font composed dec _ comps
    hz1 hz2 h
  refine ⟨R1, fun y x => ?_⟩
  rw [R3 y x, bmGet_zeros]
  simp

/-- Witness for C1 at the concrete Á decomposition: the two returned
placements reconstruct the 2×1 composite bitmap exactly. -/
theorem search_success_reconstructs_composite_witness :
    render_components exFont exComposed
      [⟨"acute", (1, 0)⟩, ⟨"A", (0, 0)⟩] = exComposed.bitmap ∧
    (∀ y x, bmGet exComposed.bitmap y x =
      ([⟨"acute", (1, 0)⟩, ⟨"A", (0, 0)⟩] : List BdfComponent).any
        (fun c => component_ink exFont exComposed.offset c y x)) :=
  search_success_reconstructs_composite exFont exComposed [65, 0x301]
    [⟨"acute", (1, 0)⟩, ⟨"A", (0, 0)⟩] (by decide) (by decide)

/-- Witness for C2 amended at the concrete scenario: the Á decomposition
returns the mark's placement first and the base's placement second. -/
theorem search_returns_outermost_last_witness :
    ∃ inner last,
      ([⟨"acute", (1, 0)⟩, ⟨"A", (0, 0)⟩] : List BdfComponent) = inner ++ [last] ∧
      (exFont.codepoints.lookup 65 = some last.name ∨
       ∃ info mc, combining_infos.lookup 65 = some info ∧
         info.modifier = some mc ∧ exFont.codepoints.lookup mc = some last.name) :=
  (search_returns_outermost_last exFont exComposed 65 [0x301] (bmZeros 2 1)
    [⟨"acute", (1, 0)⟩, ⟨"A", (0, 0)⟩] (by decide)).1

end Bdf2Ufo
